import Mathlib

/-!
Console line discipline (console.c), search path (exec.c), export (export.c)

Shallow embedding of the input side of `console.c`: the circular line buffer
`input`, the history ring `input_history`, the interrupt-side producer
`consoleintr` and the blocking consumer `consoleread`; then of `cgaputc`, of
`sys_add_path` and of `add_separated_paths`.

Conventions of the embedding

* C `uint` values are integers in `[0, 2^32)`; every `uint` operation of the
  source is followed by an explicit reduction `u32`.
* C `int` values are integers; `input.o`, `input_history.next` and
  `input_history.selected` are `int` in the source.
* A `char` cell is represented by its byte value in `[0, 256)`; the
  conversion of an `int` to `char` in an assignment is `toChar`.  The
  comparisons of a cell against newline, `C('D')` and NUL made by the source
  have the same outcome on the byte as on the sign-extended value.  Where a
  cell is passed to `consputc`, the argument is the sign-extended value
  `charToInt` of the byte.
* An array is a function from indices to cells; the cells of `input.buf`
  are those at indices `0 .. 127` and the source always reduces an index
  modulo `INPUT_BUF` before using it.
* An access outside `input_history.buf` (slot index not in `[0, 20)`, or a
  scan that leaves the 128 cells of a slot without meeting NUL) is a fault
  of the C program and is rendered by `none`.
* Calls into the output side (`consputc`, `movecur`, `uartputc`), `procdump`
  and `wakeup` are recorded, in program order, in the trace `out`.  The
  `panicked` latch tested by `consputc` is set only by `panic`, which none of
  the functions embedded here calls; it is taken to be clear.
* `input.lock` is held for the whole of `consoleintr` and of `consoleread`
  apart from `sleep`; a call is therefore a function of the state, and a
  suspended `consoleread` is an outcome of its own.
-/

namespace Console

/-- The size of `input.buf` and of every history slot. -/
def INPUT_BUF : Int := 128

/-- The number of slots of `input_history.buf`. -/
def MAX_HISTORY_LENGTH : Int := 20

/-- The pseudo character `BACKSPACE` (0x100) understood by `consputc`. -/
def BACKSPACE : Int := 256

def KEY_UP : Int := 226
def KEY_DOWN : Int := 227
def KEY_LEFT : Int := 228
def KEY_RIGHT : Int := 229

/-- The macro `C(x)`, control-x; the argument is the code of the letter. -/
def C (x : Int) : Int := x - 64

/-- The code `C('P')`, process listing. -/
def CTRL_P : Int := C 80
/-- The code `C('U')`, kill line. -/
def CTRL_U : Int := C 85
/-- The code `C('H')`, backspace. -/
def CTRL_H : Int := C 72
/-- The code `C('D')`, end of input. -/
def CTRL_D : Int := C 68
/-- The code of the delete key, written `'\x7f'` in the source. -/
def DEL : Int := 127
/-- The newline character. -/
def NL : Int := 10
/-- The carriage-return character. -/
def CR : Int := 13

/-- Conversion to `uint`: reduction modulo `2^32`. -/
def u32 (x : Int) : Int := x % 4294967296

/-- Conversion of a `uint` to `int` (two's complement). -/
def toInt32 (x : Int) : Int := (x + 2147483648) % 4294967296 - 2147483648

/-- Conversion of an `int` to `char`, as a byte. -/
def toChar (c : Int) : Int := c % 256

/-- Conversion of a `char`, given by its byte, to `int`: `char` is signed, so
the bytes from 128 on are the negative values. -/
def charToInt (b : Int) : Int := if b % 256 < 128 then b % 256 else b % 256 - 256

/-- Effects that leave the line discipline, in program order. -/
inductive Out where
  | consputc (c : Int)
  | movecur (delta : Int)
  | uartputc (c : Int)
  | procdump
  | wakeup
  deriving DecidableEq, Repr

/-- The globals `input` and `input_history`, and the trace of effects. -/
structure State where
  buf : Int → Int
  r : Int
  w : Int
  e : Int
  o : Int
  hist : Int → Int → Int
  selected : Int
  next : Int
  out : List Out

/-- The state at boot: all globals are zero-initialised. -/
def init : State :=
  { buf := fun _ => 0, r := 0, w := 0, e := 0, o := 0,
    hist := fun _ _ => 0, selected := 0, next := 0, out := [] }

/-- Assignment `a[i] = v` on an array. -/
def upd (a : Int → Int) (i v : Int) : Int → Int :=
  fun j => if j = i then v else a j

/-- Assignment `a[k][i] = v` on an array of arrays. -/
def upd2 (a : Int → Int → Int) (k i v : Int) : Int → Int → Int :=
  fun k2 j => if k2 = k ∧ j = i then v else a k2 j

/-- The loop `for(i = 0; i < n; ++i) body`, for a bound `n` the body leaves alone. -/
def forUpTo {σ : Type} : Nat → (Int → σ → σ) → σ → σ
  | 0, _, s => s
  | k + 1, f, s => f (k : Int) (forUpTo k f s)

/-- The cell `input.buf[x % INPUT_BUF]` for a `uint` expression `x`. -/
def cell (s : State) (x : Int) : Int := s.buf (u32 x % INPUT_BUF)

/-- Record one effect. -/
def emit (s : State) (ev : Out) : State := { s with out := s.out ++ [ev] }

/-- The erase loop shared by kill-line and the two recall branches:
`while(input.e != input.w && input.buf[(input.e-1) % INPUT_BUF] != '\n')
 { input.e--; consputc(BACKSPACE); }`.  The first argument bounds the number
of iterations; `u32 (e - w)` iterations always suffice. -/
def eraseLoop : Nat → State → State
  | 0, s => s
  | k + 1, s =>
    if s.e ≠ s.w ∧ cell s (s.e - 1) ≠ NL then
      eraseLoop k (emit { s with e := u32 (s.e - 1) } (.consputc BACKSPACE))
    else s

/-- The statements `movecur(input.o); input.o = 0;` followed by the erase loop. -/
def killLine (s : State) : State :=
  let s1 := { emit s (.movecur s.o) with o := 0 }
  eraseLoop (u32 (s1.e - s1.w)).toNat s1

/-- The splice loop of the recall branches, started at `i`:
`while(input_history.buf[selected][i] != '\0') { input.buf[input.e % INPUT_BUF] = ...;
 input.e++; consputc(...); i++; }`.  The first argument is the number of cells
of the slot from `i` on; leaving the slot is a fault. -/
def spliceLoop : Nat → Int → State → Option State
  | 0, _, _ => none
  | k + 1, i, s =>
    if s.hist s.selected i ≠ 0 then
      spliceLoop k (i + 1)
        (emit { s with buf := upd s.buf (u32 s.e % INPUT_BUF) (s.hist s.selected i),
                       e := u32 (s.e + 1) }
          (.consputc (charToInt (s.hist s.selected i))))
    else some s

/-- Splice the selected history slot into the edit region. -/
def splice (s : State) : Option State :=
  if 0 ≤ s.selected ∧ s.selected < MAX_HISTORY_LENGTH then
    spliceLoop INPUT_BUF.toNat 0 s
  else none

/-- The copy loop and the terminator of the history push:
`for(i = 0; i < (input.e + INPUT_BUF - input.w) % INPUT_BUF; ++i)
   input_history.buf[next][i] = input.buf[(input.w + i) % INPUT_BUF];
 input_history.buf[next][i] = '\0';`. -/
def pushCopy (s : State) : Int → Int → Int :=
  let n := (u32 (s.e + INPUT_BUF - s.w) % INPUT_BUF).toNat
  upd2 (forUpTo n (fun i h => upd2 h s.next i (cell s (s.w + i))) s.hist) s.next (n : Int) 0

/-- The block of the default branch entered before the insertion when the code
ends a line: the history push (if the edit region is not empty), the reset of
`selected`, `movecur(input.o)` and `input.o = 0`. -/
def endLine (s : State) : Option State :=
  if s.e ≠ s.w then
    if 0 ≤ s.next ∧ s.next < MAX_HISTORY_LENGTH then
      some { emit s (.movecur s.o) with
               hist := pushCopy s, next := s.next + 1, selected := s.next + 1, o := 0 }
    else none
  else
    some { emit s (.movecur s.o) with selected := s.next, o := 0 }

/-- The loop `for(i = 0; i < input.o; ++i)
  input.buf[(input.e-i) % INPUT_BUF] = input.buf[(input.e-i-1) % INPUT_BUF];`. -/
def shiftRight (s : State) : State :=
  forUpTo s.o.toNat
    (fun i t => { t with buf := upd t.buf (u32 (t.e - i) % INPUT_BUF) (cell t (t.e - i - 1)) }) s

/-- The loop `for(i = 0; i < input.o; ++i)
  input.buf[(input.e-input.o-1+i) % INPUT_BUF] = input.buf[(input.e-input.o+i) % INPUT_BUF];`. -/
def shiftLeft (s : State) : State :=
  forUpTo s.o.toNat
    (fun i t => { t with buf := upd t.buf (u32 (t.e - t.o - 1 + i) % INPUT_BUF)
                                  (cell t (t.e - t.o + i)) }) s

/-- The loop `for(i = 0; i < input.o; ++i)
  consputc(input.buf[(input.e-input.o+i) % INPUT_BUF]);`. -/
def reecho (s : State) : State :=
  forUpTo s.o.toNat (fun i t => emit t (.consputc (charToInt (cell t (t.e - t.o + i))))) s

/-- The test `c == '\n' || c == C('D') || input.e == input.r+INPUT_BUF`. -/
def endsLine (s : State) (c : Int) : Prop :=
  c = NL ∨ c = CTRL_D ∨ s.e = u32 (s.r + INPUT_BUF)

instance (s : State) (c : Int) : Decidable (endsLine s c) := by
  unfold endsLine; infer_instance

/-- The body of the default branch once the guard
`c != 0 && input.e-input.r < INPUT_BUF` has passed; `c` is the code after the
replacement of carriage return by newline. -/
def insertChar (s : State) (c : Int) : Option State :=
  (if endsLine s c then endLine s else some s).bind fun s1 =>
    let s2 := shiftRight s1
    let s3 := { s2 with buf := upd s2.buf (u32 (s2.e - s2.o) % INPUT_BUF) (toChar c) }
    let s4 := emit { s3 with e := u32 (s3.e + 1) } (.consputc c)
    let s5 := emit (reecho s4) (.movecur (-s4.o))
    if endsLine s5 c then some (emit { s5 with w := s5.e } .wakeup) else some s5

/-- The branch `case C('H'): case '\x7f':`. -/
def backspace (s : State) : State :=
  if u32 (s.e - s.o) ≠ s.w then
    let s1 := shiftLeft s
    let s2 := emit (emit (emit s1 (.movecur s1.o)) (.consputc BACKSPACE)) (.movecur (-s1.o))
    let s3 := { s2 with e := u32 (s2.e - 1) }
    emit (reecho s3) (.movecur (-s3.o))
  else s

/-- The update of `selected` in `case KEY_UP`: decrement, add the ring size
if negative, then the C remainder (which truncates toward zero). -/
def selectPrev (sel : Int) : Int :=
  let a := sel - 1
  let b := if a < 0 then a + MAX_HISTORY_LENGTH else a
  Int.tmod b MAX_HISTORY_LENGTH

/-- The update of `selected` in `case KEY_DOWN`. -/
def selectNext (sel : Int) : Int := Int.tmod (sel + 1) MAX_HISTORY_LENGTH

/-- One iteration of the loop of `consoleintr`, for a code `c >= 0`: the
`switch` statement. -/
def consoleintr1 (s : State) (c : Int) : Option State :=
  if c = CTRL_P then some (emit s .procdump)
  else if c = CTRL_U then some (killLine s)
  else if c = CTRL_H ∨ c = DEL then some (backspace s)
  else if c = KEY_UP then
    let s1 := killLine s
    splice { s1 with selected := selectPrev s1.selected }
  else if c = KEY_DOWN then
    if s.next ≠ s.selected then
      let s1 := killLine s
      splice { s1 with selected := selectNext s1.selected }
    else some s
  else if c = KEY_LEFT then
    if u32 s.o < u32 (s.e - s.w) then
      some (emit (emit { s with o := s.o + 1 } (.uartputc 8)) (.movecur (-1)))
    else some s
  else if c = KEY_RIGHT then
    if s.o > 0 then some (emit { s with o := s.o - 1 } (.movecur 1))
    else some s
  else if c ≠ 0 ∧ u32 (s.e - s.r) < INPUT_BUF then
    insertChar s (if c = CR then NL else c)
  else some s

/-- The function `consoleintr`: the codes delivered by `getc` are processed
in order until `getc` returns a negative value (or the list is exhausted). -/
def consoleintr : State → List Int → Option State
  | s, [] => some s
  | s, c :: cs =>
    if c < 0 then some s
    else (consoleintr1 s c).bind fun s1 => consoleintr s1 cs

/-- How a call of `consoleread` leaves its loop: it returns `val` having
written `dst`, or it is suspended in `sleep` with `n` bytes still wanted. -/
inductive ReadOutcome where
  | ret (val : Int) (dst : List Int) (s : State)
  | sleep (n : Nat) (dst : List Int) (s : State)

/-- The loop `while(n > 0)` of `consoleread`; the recursion is on `n`. The
flag is `proc->killed` and `target` is the `uint` copy of the requested count.
The value `c` read from a cell is a `char`, so `*dst++ = c` stores it unchanged. -/
def consoleread_loop (killed : Bool) (target : Int) : Nat → List Int → State → ReadOutcome
  | 0, dst, s => .ret (toInt32 (u32 (target - 0))) dst s
  | n + 1, dst, s =>
    if s.r = s.w then
      if killed then .ret (-1) dst s else .sleep (n + 1) dst s
    else
      let c := s.buf (s.r % INPUT_BUF)
      let s1 := { s with r := u32 (s.r + 1) }
      if c = CTRL_D then
        if u32 ((n : Int) + 1) < target then
          .ret (toInt32 (u32 (target - ((n : Int) + 1)))) dst { s1 with r := u32 (s1.r - 1) }
        else .ret (toInt32 (u32 (target - ((n : Int) + 1)))) dst s1
      else if c = NL then .ret (toInt32 (u32 (target - (n : Int)))) (dst ++ [c]) s1
      else consoleread_loop killed target n (dst ++ [c]) s1

/-- The function `consoleread(ip, dst, n)`. -/
def consoleread (killed : Bool) (n : Int) (s : State) : ReadOutcome :=
  if n > 0 then consoleread_loop killed (u32 n) n.toNat [] s
  else .ret (toInt32 (u32 (u32 n - n))) [] s

/-- The cells at the `n` consecutive positions from `a` on, read through
modulo-`INPUT_BUF` indexing. -/
def region (buf : Int → Int) (a : Int) (n : Nat) : List Int :=
  (List.range n).map fun (i : Nat) => buf ((a + (i : Int)) % INPUT_BUF)

/-- The committed, unread region `[r, w)`. -/
def committed (s : State) : List Int := region s.buf s.r (u32 (s.w - s.r)).toNat

/-- The region under edit `[w, e)`. -/
def editRegion (s : State) : List Int := region s.buf s.w (u32 (s.e - s.w)).toNat

/-! ## Auxiliary definitions used by the statements and proofs -/

/-- The buffer after `n` iterations of the right-shift loop at edit index `e`. -/
def shiftBufR (e : Int) (n : Nat) (b : Int → Int) : Int → Int :=
  forUpTo n (fun i b => upd b ((e - i) % INPUT_BUF) (b ((e - i - 1) % INPUT_BUF))) b

/-- The effects of the re-echo loop. -/
def reechoOut (s : State) (n : Nat) : List Out :=
  (List.range n).map fun (i : Nat) => Out.consputc (charToInt (cell s (s.e - s.o + (i : Int))))

/-- An ordinary character: a non-zero byte that is none of the codes the
`switch` of `consoleintr` treats apart, nor a line-ending code. -/
def ordinary (c : Int) : Prop :=
  0 < c ∧ c < 256 ∧ c ≠ NL ∧ c ≠ CR ∧ c ≠ CTRL_D ∧ c ≠ CTRL_P ∧ c ≠ CTRL_U ∧ c ≠ CTRL_H ∧
    c ≠ DEL ∧ c ≠ KEY_UP ∧ c ≠ KEY_DOWN ∧ c ≠ KEY_LEFT ∧ c ≠ KEY_RIGHT

instance (c : Int) : Decidable (ordinary c) := by
  unfold ordinary; infer_instance

/-- The list `t` is the content of the edit region `[w, e)` of `s`. -/
def EditIs (s : State) (t : List Int) : Prop :=
  u32 (s.e - s.w) = (t.length : Int) ∧
    ∀ i : Nat, i < t.length → t[i]? = some (s.buf ((s.w + (i : Int)) % INPUT_BUF))

/-- The Line Buffer invariant of the specification: `r ≤ w ≤ e ≤ r + 128` and
`0 ≤ o ≤ e − w`. -/
def BufInv (s : State) : Prop :=
  s.r ≤ s.w ∧ s.w ≤ s.e ∧ s.e ≤ s.r + INPUT_BUF ∧ 0 ≤ s.o ∧ s.o ≤ s.e - s.w

/-- A state whose committed region is `[97, C('D')]`. -/
def eofState : State := { init with buf := upd (upd init.buf 0 97) 1 CTRL_D, w := 2, e := 2 }

/-- A state whose committed region is `[97, NL]`. -/
def lineState : State := { init with buf := upd (upd init.buf 0 97) 1 NL, w := 2, e := 2 }

/-- Twenty one-character lines, each ended by a newline. -/
def twentyLines : List Int := (List.replicate 20 [97, NL]).flatten

instance (s : State) : Decidable (BufInv s) := by
  unfold BufInv; infer_instance

/-- A state with the three cells `abc` under edit and the insert offset 1. -/
def abcState : State :=
  { init with buf := upd (upd (upd init.buf 0 97) 1 98) 2 99, e := 3, o := 1 }

/-- The buffer after `n` iterations of the left-shift loop of backspace; `a`
is the insertion point `e - o`. -/
def shiftBufL (a : Int) (n : Nat) (b : Int → Int) : Int → Int :=
  forUpTo n (fun i b => upd b ((a - 1 + i) % INPUT_BUF) (b ((a + i) % INPUT_BUF))) b

/-- The reference list editor of the specification: a text and a cursor. -/
structure ListEditor where
  text : List Int
  cursor : Nat

/-- One operation of the reference list editor: backspace deletes the
character before the cursor and is a no-op at position 0, cursor-left is a
no-op at position 0, cursor-right is a no-op at the end, and any other code is
inserted at the cursor, which advances. -/
def ListEditor.step (ed : ListEditor) (c : Int) : ListEditor :=
  if c = CTRL_H ∨ c = DEL then
    if ed.cursor = 0 then ed
    else { text := ed.text.eraseIdx (ed.cursor - 1), cursor := ed.cursor - 1 }
  else if c = KEY_LEFT then
    if ed.cursor = 0 then ed else { ed with cursor := ed.cursor - 1 }
  else if c = KEY_RIGHT then
    if ed.cursor = ed.text.length then ed else { ed with cursor := ed.cursor + 1 }
  else
    { text := ed.text.take ed.cursor ++ c :: ed.text.drop ed.cursor, cursor := ed.cursor + 1 }

/-- The reference list editor run over a sequence of operations. -/
def ListEditor.run (ed : ListEditor) (ops : List Int) : ListEditor :=
  ops.foldl ListEditor.step ed

/-- The codes of the in-line editor: ordinary characters, the two backspace
codes, cursor-left and cursor-right. -/
def editOp (c : Int) : Prop :=
  ordinary c ∨ c = CTRL_H ∨ c = DEL ∨ c = KEY_LEFT ∨ c = KEY_RIGHT

instance (c : Int) : Decidable (editOp c) := by
  unfold editOp; infer_instance

/-- No state of the run of `consoleintr` over `ops` from `s`, the first and
the last included, has a full buffer: `e - r < INPUT_BUF` throughout, so that
no commit is forced. -/
def neverFull : State → List Int → Bool
  | s, [] => decide (u32 (s.e - s.r) < INPUT_BUF)
  | s, c :: cs =>
    decide (u32 (s.e - s.r) < INPUT_BUF) &&
      (match consoleintr1 s c with
       | some s1 => neverFull s1 cs
       | none => true)

/-- The state `s` of the line discipline, reached from `s0`, stands for the
list editor `ed`: same text in `[w, e)`, same insertion point, and `r`, `w`,
the committed cells and the history ring as in `s0`. -/
def Sim (s0 s : State) (ed : ListEditor) : Prop :=
  EditIs s ed.text ∧ ed.cursor ≤ ed.text.length ∧
    s.o = (ed.text.length : Int) - ed.cursor ∧
    u32 (s0.w - s0.r) + ed.text.length ≤ 127 ∧
    s.w = s0.w ∧ s.r = s0.r ∧
    (∀ j : Nat, (j : Int) < u32 (s0.w - s0.r) →
      s.buf ((s0.r + (j : Int)) % INPUT_BUF) = s0.buf ((s0.r + (j : Int)) % INPUT_BUF)) ∧
    s.hist = s0.hist ∧ s.next = s0.next ∧ s.selected = s0.selected ∧
    (0 ≤ s.e ∧ s.e < 4294967296)

/-- The slot `k` of the history ring holds the line `l`: its characters, then NUL. -/
def SlotHolds (hist : Int → Int → Int) (k : Int) (l : List Int) : Prop :=
  (∀ j : Nat, j < l.length → l[j]? = some (hist k (j : Int))) ∧ hist k (l.length : Int) = 0

/-- The line `b` followed by 99 times `a`. -/
def longLine : List Int := 98 :: List.replicate 99 97

/-! ## The output sink: `cgaputc` (console.c) -/

/-- The CGA text screen as `cgaputc` sees it: the cells of `crt` (16-bit
values, indices `0 .. 24*80 - 1` in use) and the two cursor registers of the
CRT controller, register 14 (high byte) and register 15 (low byte). -/
structure Cga where
  crt : Int → Int
  reg14 : Int
  reg15 : Int

/-- The cursor position read back from the registers:
`pos = inb(CRTPORT+1) << 8; pos |= inb(CRTPORT+1);`. -/
def Cga.pos (g : Cga) : Int := g.reg14 * 256 + g.reg15

/-- The statement `memmove(crt, crt+80, sizeof(crt[0])*23*80)`. -/
def scrollUp (crt : Int → Int) : Int → Int :=
  fun i => if 0 ≤ i ∧ i < 23 * 80 then crt (i + 80) else crt i

/-- The statement `memset(crt+pos, 0, sizeof(crt[0])*(24*80 - pos))`. -/
def clearFrom (crt : Int → Int) (pos : Int) : Int → Int :=
  fun i => if pos ≤ i ∧ i < 24 * 80 then 0 else crt i

/-- The cells after the first `if` of `cgaputc`: untouched by a newline or a
`BACKSPACE`, and holding `(c & 0xff) | 0x0700` at the cursor otherwise. -/
def cgaWrite (g : Cga) (c : Int) : Int → Int :=
  if c = NL then g.crt
  else if c = BACKSPACE then g.crt
  else upd g.crt g.pos (c % 256 + 1792)

/-- The cursor after the first `if` of `cgaputc`. -/
def cgaAdvance (g : Cga) (c : Int) : Int :=
  if c = NL then g.pos + (80 - Int.tmod g.pos 80)
  else if c = BACKSPACE then (if g.pos > 0 then g.pos - 1 else g.pos)
  else g.pos + 1

/-- The function `cgaputc`. -/
def cgaputc (g : Cga) (c : Int) : Cga :=
  let crt1 := cgaWrite g c
  let pos1 := cgaAdvance g c
  let scroll : Prop := Int.tdiv pos1 80 ≥ 24
  let crt2 := if scroll then clearFrom (scrollUp crt1) (pos1 - 80) else crt1
  let pos2 := if scroll then pos1 - 80 else pos1
  { crt := upd crt2 pos2 (32 + 1792), reg14 := (pos2 / 256) % 256, reg15 := pos2 % 256 }

/-- A blank screen with the cursor on the last cell (position 1919). -/
def lastCell : Cga := { crt := fun _ => 0, reg14 := 7, reg15 := 127 }

/-! ## The search-path table: `sys_add_path` (exec.c)

A C string is given by the list of its characters, none of them NUL; the
terminating NUL is implicit. -/

/-- The constant `MAX_PATH_ENTRIES` of `exec.c`. -/
def MAX_PATH_ENTRIES : Int := 10

/-- The character `'/'`. -/
def SLASH : Int := 47

/-- The global `kernel_path` of `exec.c`: ten entries of `INPUT_BUF` cells and
the number of entries in use (a `uint`). -/
structure PathTable where
  entries : Int → Int → Int
  size : Int

/-- The cell `p[i]` of a C string given by its characters: the characters,
then the terminating NUL. -/
def strAt (p : List Int) (i : Int) : Int :=
  if 0 ≤ i ∧ i < p.length then p.getD i.toNat 0 else 0

/-- Modelled from the spec: `strlen` of `string.c` is not among the sources;
it is the C library function, the number of characters before the NUL. -/
def strlen (p : List Int) : Int := p.length

/-- Modelled from the spec: `safestrcpy` of `string.c` is not among the
sources; it is the xv6 library function `safestrcpy(s, t, n)`, which copies
characters of `t` while fewer than `n - 1` have been copied and the character
copied is not NUL, then writes a NUL: the result holds the first
`min(|t|, n - 1)` characters of `t` followed by NUL (twice when the NUL of `t`
was itself copied), the other cells of `s` being left alone. -/
def safestrcpy (s : Int → Int) (t : List Int) (n : Int) : Int → Int :=
  if n ≤ 0 then s
  else
    let m : Int := min (t.length : Int) (n - 1)
    fun j =>
      if 0 ≤ j ∧ j < m then strAt t j
      else if j = m then 0
      else if j = m + 1 ∧ (t.length : Int) < n - 1 then 0
      else s j

/-- The system call `sys_add_path`.  The argument is what `argstr(0, &path)`
delivers: `none` when it fails, the characters of the string otherwise.  The
result is the value returned and the table afterwards; `none` renders an
access outside an array (the read of `path[l-1]` for an empty string, an entry
index outside the table). -/
def sys_add_path (arg : Option (List Int)) (kp : PathTable) : Option (Int × PathTable) :=
  match arg with
  | none => some (-1, kp)
  | some path =>
    if kp.size = MAX_PATH_ENTRIES then some (-1, kp)
    else if ¬ (0 ≤ kp.size ∧ kp.size < MAX_PATH_ENTRIES) then none
    else
      let e1 := safestrcpy (kp.entries kp.size) path INPUT_BUF
      let l := strlen path
      if l - 1 < 0 then none
      else
        let e2 :=
          if strAt path (l - 1) ≠ SLASH ∧ l < INPUT_BUF - 1 then upd (upd e1 l SLASH) (l + 1) 0
          else e1
        some (0, { entries := fun k => if k = kp.size then e2 else kp.entries k,
                   size := u32 (kp.size + 1) })

/-- The cells `a` hold the C string `str`: its characters, none of them NUL,
then NUL. -/
def HoldsStr (a : Int → Int) (str : List Int) : Prop :=
  (∀ j : Nat, j < str.length → str[j]? = some (a (j : Int)) ∧ a (j : Int) ≠ 0) ∧
    a (str.length : Int) = 0

/-- The table at boot: no entry. -/
def emptyTable : PathTable := { entries := fun _ _ => 0, size := 0 }

/-- The string `sys_add_path` stores for a path: the path and a separator
when the path lacks one and both fit, the first 127 characters otherwise. -/
def storedPath (path : List Int) : List Int :=
  if path.getLast? ≠ some SLASH ∧ path.length < 127 then path ++ [SLASH] else path.take 127

/-! ## The user command `export`: `add_separated_paths` (export.c)

The string `argv[1]` sits at address 0 of a memory of characters; `start` and
`cur` are addresses.  The calls of `add_path` are recorded with the string
each of them is passed. -/

/-- The constant `PATH_SEP` of `export.c`, the character `':'`. -/
def PATH_SEP : Int := 58

/-- The C string at address `a` of a memory: the characters up to the first
NUL, as `add_path` reads its argument.  The first argument bounds the scan. -/
def readStr (mem : Int → Int) : Nat → Int → List Int
  | 0, _ => []
  | k + 1, a => if mem a = 0 then [] else mem a :: readStr mem k (a + 1)

/-- The loop `while(*start == PATH_SEP) start++;`; `none` when the bound on
the number of iterations is exhausted. -/
def skipSeps (mem : Int → Int) : Nat → Int → Option Int
  | 0, _ => none
  | k + 1, start => if mem start = PATH_SEP then skipSeps mem k (start + 1) else some start

/-- What a run of `add_separated_paths` leaves behind: the arguments of the
calls of `add_path`, in order, and the character `*start` seen at each
evaluation of the head of the `while(1)` loop. -/
structure ExportTrace where
  calls : List (List Int)
  heads : List Int

/-- The loop `while(1)` of `add_separated_paths`.  The first argument bounds
the number of iterations and `n` bounds the scans of the inner loops and of
`add_path`; `none` when a bound is exhausted. -/
def exportLoop (n : Nat) : Nat → (Int → Int) → Int → Int → ExportTrace → Option ExportTrace
  | 0, _, _, _, _ => none
  | k + 1, mem, start, cur, tr =>
    let tr1 : ExportTrace := { tr with heads := tr.heads ++ [mem start] }
    if mem cur = 0 then
      some { tr1 with calls := tr1.calls ++ [readStr mem n start] }
    else if mem cur = PATH_SEP then
      let mem1 := upd mem cur 0
      let tr2 : ExportTrace := { tr1 with calls := tr1.calls ++ [readStr mem1 n start] }
      match skipSeps mem1 n (cur + 1) with
      | none => none
      | some start1 =>
        if mem1 start1 = 0 then some tr2
        else exportLoop n k mem1 start1 (start1 + 1) tr2
    else exportLoop n k mem start (cur + 1) tr1

/-- The memory that holds the C string `p` at address 0: its characters, then NUL. -/
def strMem (p : List Int) : Int → Int := fun i => strAt p i

/-- The function `add_separated_paths(pathstr)`, for the string `p` at
`pathstr`: the trace of the run, `none` if the run does not come to an end
within `|p| + 1` iterations of each of its loops. -/
def add_separated_paths (p : List Int) : Option ExportTrace :=
  match skipSeps (strMem p) (p.length + 1) 0 with
  | none => none
  | some start =>
    if strMem p start = 0 then some { calls := [], heads := [] }
    else exportLoop (p.length + 1) (p.length + 1) (strMem p) start start { calls := [], heads := [] }

/-- The maximal non-empty runs of characters other than `':'` of a string,
from left to right; `acc` is the run being read. -/
def runsFrom : List Int → List Int → List (List Int)
  | acc, [] => if acc = [] then [] else [acc]
  | acc, c :: cs =>
    if c = PATH_SEP then (if acc = [] then runsFrom [] cs else acc :: runsFrom [] cs)
    else runsFrom (acc ++ [c]) cs

/-- The maximal non-empty runs of characters other than `':'` of a string. -/
def pathRuns (p : List Int) : List (List Int) := runsFrom [] p

/-- The memory `mem` holds the C string `l` at address `a`. -/
def Agree (mem : Int → Int) (a : Int) (l : List Int) : Prop :=
  ∀ j : Nat, j ≤ l.length → mem (a + (j : Int)) = strAt l (j : Int)

/-! ## Theorems -/

theorem u32_mod_buf (x : Int) : u32 x % INPUT_BUF = x % INPUT_BUF := by
  unfold u32 INPUT_BUF; omega

theorem cell_eq (s : State) (x : Int) : cell s x = s.buf (x % INPUT_BUF) := by
  unfold cell; rw [u32_mod_buf]

theorem upd_same (a : Int → Int) (i v : Int) : upd a i v i = v := by
  simp [upd]

theorem upd_other (a : Int → Int) (i v j : Int) (h : j ≠ i) : upd a i v j = a j := by
  simp [upd, h]

theorem shiftBufR_succ (e : Int) (k : Nat) (b : Int → Int) :
    shiftBufR e (k + 1) b
      = upd (shiftBufR e k b) ((e - k) % INPUT_BUF) (shiftBufR e k b ((e - k - 1) % INPUT_BUF)) :=
  rfl

theorem shiftRight_loop (s : State) (n : Nat) :
    forUpTo n (fun i t => { t with buf := upd t.buf (u32 (t.e - i) % INPUT_BUF) (cell t (t.e - i - 1)) }) s
      = { s with buf := shiftBufR s.e n s.buf } := by
  induction n with
  | zero => rfl
  | succ k ih =>
    simp only [forUpTo, shiftBufR] at ih ⊢
    rw [ih]
    simp only [cell_eq, u32_mod_buf]

theorem shiftRight_eq (s : State) :
    shiftRight s = { s with buf := shiftBufR s.e s.o.toNat s.buf } :=
  shiftRight_loop s _

theorem shiftBufR_spec (e : Int) (b : Int → Int) (n : Nat) (hn : n ≤ 127) (d : Int)
    (hd0 : 0 ≤ d) (hd : d < 128) :
    shiftBufR e n b ((e - d) % INPUT_BUF)
      = if d < n then b ((e - d - 1) % INPUT_BUF) else b ((e - d) % INPUT_BUF) := by
  induction n generalizing d with
  | zero =>
    have : ¬ d < ((0 : Nat) : Int) := by push_cast; omega
    rw [if_neg this]; rfl
  | succ k ih =>
    have ihk := ih (by omega)
    rw [shiftBufR_succ]
    by_cases hdk : d = k
    · subst hdk
      rw [upd_same]
      have h1 := ihk ((k : Int) + 1) (by omega) (by omega)
      have e2 : (e - ((k:Int) + 1) ) = e - k - 1 := by ring
      rw [e2] at h1
      rw [h1]
      have h3 : ¬ ((k : Int) + 1 < k) := by omega
      have h4 : (k : Int) < ((k + 1 : Nat) : Int) := by push_cast; omega
      rw [if_neg h3, if_pos h4]
    · have hne : (e - d) % INPUT_BUF ≠ (e - (k:Int)) % INPUT_BUF := by
        unfold INPUT_BUF; omega
      rw [upd_other _ _ _ _ hne, ihk d hd0 hd]
      by_cases h : d < k
      · have : d < ((k+1 : Nat) : Int) := by push_cast; omega
        rw [if_pos h, if_pos this]
      · have : ¬ d < ((k+1 : Nat) : Int) := by push_cast; omega
        rw [if_neg h, if_neg this]

theorem reecho_loop (s : State) (n : Nat) :
    forUpTo n (fun i t => emit t (.consputc (charToInt (cell t (t.e - t.o + i))))) s
      = { s with out := s.out ++ reechoOut s n } := by
  induction n with
  | zero => simp [forUpTo, reechoOut]
  | succ k ih =>
    simp only [forUpTo]
    rw [ih]
    simp [emit, reechoOut, List.range_succ, cell]

theorem reecho_eq (s : State) :
    reecho s = { s with out := s.out ++ reechoOut s s.o.toNat } :=
  reecho_loop s _

theorem endsLine_guard (s : State) (c : Int) (hg : u32 (s.e - s.r) < INPUT_BUF) :
    endsLine s c ↔ (c = NL ∨ c = CTRL_D) := by
  unfold endsLine
  have : s.e ≠ u32 (s.r + INPUT_BUF) := by
    unfold u32 INPUT_BUF at *; omega
  simp [this]

/-- Insertion of a code that does not end the line and does not fill the buffer. -/
theorem insertChar_plain (s : State) (c : Int) (hc : c ≠ NL ∧ c ≠ CTRL_D)
    (hg : u32 (s.e - s.r) < INPUT_BUF - 1) :
    ∃ s1, insertChar s c = some s1 ∧
      s1.buf = upd (shiftBufR s.e s.o.toNat s.buf) ((s.e - s.o) % INPUT_BUF) (toChar c) ∧
      s1.e = u32 (s.e + 1) ∧ s1.w = s.w ∧ s1.r = s.r ∧ s1.o = s.o ∧
      s1.hist = s.hist ∧ s1.next = s.next ∧ s1.selected = s.selected := by
  have h1 : ¬ endsLine s c := by
    rw [endsLine_guard s c (by unfold INPUT_BUF at *; omega)]; tauto
  unfold insertChar
  rw [if_neg h1]
  simp only [Option.some_bind, shiftRight_eq, reecho_eq, emit, u32_mod_buf]
  split
  · rename_i h
    exfalso
    simp only [endsLine] at h
    unfold u32 INPUT_BUF at *
    omega
  · exact ⟨_, rfl, rfl, rfl, rfl, rfl, rfl, rfl, rfl, rfl⟩

/-- Insertion of a code that does not end the line but fills the buffer: the
line is committed, the history and the insert offset are left as they are. -/
theorem insertChar_full (s : State) (c : Int) (hc : c ≠ NL ∧ c ≠ CTRL_D)
    (hg : u32 (s.e - s.r) = INPUT_BUF - 1) :
    ∃ s1, insertChar s c = some s1 ∧
      s1.buf = upd (shiftBufR s.e s.o.toNat s.buf) ((s.e - s.o) % INPUT_BUF) (toChar c) ∧
      s1.e = u32 (s.e + 1) ∧ s1.w = u32 (s.e + 1) ∧ s1.r = s.r ∧ s1.o = s.o ∧
      s1.hist = s.hist ∧ s1.next = s.next ∧ s1.selected = s.selected := by
  have h1 : ¬ endsLine s c := by
    rw [endsLine_guard s c (by unfold INPUT_BUF at *; omega)]; tauto
  unfold insertChar
  rw [if_neg h1]
  simp only [Option.some_bind, shiftRight_eq, reecho_eq, emit, u32_mod_buf]
  split
  · exact ⟨_, rfl, rfl, rfl, rfl, rfl, rfl, rfl, rfl, rfl⟩
  · rename_i h
    exfalso
    apply h
    simp only [endsLine]
    unfold u32 INPUT_BUF at *
    omega

/-- Insertion of a line-ending code, once the block before the insertion has run. -/
theorem insertChar_end (s s1 : State) (c : Int) (hc : c = NL ∨ c = CTRL_D)
    (h1 : endLine s = some s1) :
    ∃ s2, insertChar s c = some s2 ∧
      s2.buf = upd (shiftBufR s1.e s1.o.toNat s1.buf) ((s1.e - s1.o) % INPUT_BUF) (toChar c) ∧
      s2.e = u32 (s1.e + 1) ∧ s2.w = u32 (s1.e + 1) ∧ s2.r = s1.r ∧ s2.o = s1.o ∧
      s2.hist = s1.hist ∧ s2.next = s1.next ∧ s2.selected = s1.selected := by
  have h0 : endsLine s c := by unfold endsLine; tauto
  unfold insertChar
  rw [if_pos h0, h1]
  simp only [Option.some_bind, shiftRight_eq, reecho_eq, emit, u32_mod_buf]
  rw [if_pos (by unfold endsLine; tauto)]
  exact ⟨_, rfl, rfl, rfl, rfl, rfl, rfl, rfl, rfl, rfl⟩

theorem shiftBufR_frame (e : Int) (b : Int → Int) (n : Nat) (x : Int)
    (hx : ∀ i : Nat, i < n → x ≠ (e - (i : Int)) % INPUT_BUF) :
    shiftBufR e n b x = b x := by
  induction n with
  | zero => rfl
  | succ k ih =>
    rw [shiftBufR_succ, upd_other _ _ _ _ (hx k (by omega))]
    exact ih (fun i hi => hx i (by omega))

theorem insertAt_getElem (t : List Int) (p : Nat) (hp : p ≤ t.length) (c : Int) (i : Nat) :
    (t.take p ++ c :: t.drop p)[i]? =
      if i < p then t[i]? else if i = p then some c else t[i - 1]? := by
  have hl : (t.take p).length = p := by simp [hp]
  by_cases h1 : i < p
  · rw [if_pos h1, List.getElem?_append_left (by omega), List.getElem?_take_of_lt h1]
  · rw [if_neg h1, List.getElem?_append_right (by omega), hl]
    by_cases h2 : i = p
    · subst h2; simp
    · rw [if_neg h2]
      obtain ⟨j, hj⟩ : ∃ j, i - p = j + 1 := ⟨i - p - 1, by omega⟩
      rw [hj, List.getElem?_cons_succ, List.getElem?_drop]
      congr 1; omega

theorem consoleintr1_ordinary (s : State) (c : Int) (hc : ordinary c)
    (hg : u32 (s.e - s.r) < INPUT_BUF) : consoleintr1 s c = insertChar s c := by
  obtain ⟨h0, _, h1, h2, h3, h4, h5, h6, h7, h8, h9, h10, h11⟩ := hc
  unfold consoleintr1
  rw [if_neg h4, if_neg h5, if_neg (by tauto), if_neg h8, if_neg h9, if_neg h10, if_neg h11,
    if_pos ⟨by omega, hg⟩, if_neg h2]

theorem toChar_ordinary (c : Int) (hc : ordinary c) : toChar c = c := by
  unfold toChar; have := hc.1; have := hc.2.1; omega

/-- One ordinary character typed at insert offset `o` into an edit region
holding `t`: the character lands `o` places before the end. -/
theorem insert_step (s : State) (t : List Int) (c : Int) (hc : ordinary c)
    (ht : EditIs s t) (ho : 0 ≤ s.o ∧ s.o ≤ t.length) (hlen : t.length ≤ 126)
    (hg : u32 (s.e - s.r) < INPUT_BUF - 1) :
    ∃ s1, consoleintr1 s c = some s1 ∧
      EditIs s1 (t.take (t.length - s.o.toNat) ++ c :: t.drop (t.length - s.o.toNat)) ∧
      s1.e = u32 (s.e + 1) ∧ s1.w = s.w ∧ s1.r = s.r ∧ s1.o = s.o ∧
      s1.hist = s.hist ∧ s1.next = s.next ∧ s1.selected = s.selected ∧
      (∀ x, (∀ i : Nat, i ≤ t.length → x ≠ (s.w + (i : Int)) % INPUT_BUF) → s1.buf x = s.buf x) := by
  rw [consoleintr1_ordinary s c hc (by unfold INPUT_BUF at *; omega)]
  obtain ⟨s1, h1, hb, he, hw, hr, ho1, hh, hn, hs⟩ :=
    insertChar_plain s c ⟨hc.2.2.1, hc.2.2.2.2.1⟩ hg
  refine ⟨s1, h1, ?_, he, hw, hr, ho1, hh, hn, hs, ?_⟩
  · obtain ⟨hL, hcells⟩ := ht
    constructor
    · rw [he, hw]
      simp only [List.length_append, List.length_cons, List.length_take, List.length_drop]
      unfold u32 at *
      push_cast
      omega
    · intro i hi
      simp only [List.length_append, List.length_cons, List.length_take, List.length_drop] at hi
      rw [insertAt_getElem t _ (by omega) c i, hb, hw, toChar_ordinary c hc]
      have hidx : (s.w + (i : Int)) % INPUT_BUF = (s.e - ((t.length : Int) - i)) % INPUT_BUF := by
        unfold u32 INPUT_BUF at *; omega
      by_cases h1 : i < t.length - s.o.toNat
      · rw [if_pos h1]
        have hne : (s.w + (i : Int)) % INPUT_BUF ≠ (s.e - s.o) % INPUT_BUF := by
          unfold u32 INPUT_BUF at *; omega
        rw [upd_other _ _ _ _ hne, hidx,
          shiftBufR_spec s.e s.buf s.o.toNat (by omega) _ (by omega) (by omega),
          if_neg (by omega), ← hidx]
        exact hcells i (by omega)
      · rw [if_neg h1]
        by_cases h2 : i = t.length - s.o.toNat
        · rw [if_pos h2]
          have heq : (s.w + (i : Int)) % INPUT_BUF = (s.e - s.o) % INPUT_BUF := by
            unfold u32 INPUT_BUF at *; omega
          rw [heq, upd_same]
        · rw [if_neg h2]
          have hne : (s.w + (i : Int)) % INPUT_BUF ≠ (s.e - s.o) % INPUT_BUF := by
            unfold u32 INPUT_BUF at *; omega
          rw [upd_other _ _ _ _ hne, hidx,
            shiftBufR_spec s.e s.buf s.o.toNat (by omega) _ (by omega) (by omega),
            if_pos (by omega)]
          have hidx2 : (s.e - ((t.length : Int) - i) - 1) % INPUT_BUF
              = (s.w + ((i - 1 : Nat) : Int)) % INPUT_BUF := by
            unfold u32 INPUT_BUF at *; omega
          rw [hidx2]
          exact hcells (i - 1) (by omega)
  · intro x hx
    rw [hb]
    obtain ⟨hL, _⟩ := ht
    have hne : x ≠ (s.e - s.o) % INPUT_BUF := by
      have := hx (t.length - s.o.toNat) (by omega)
      unfold u32 INPUT_BUF at *; omega
    rw [upd_other _ _ _ _ hne]
    apply shiftBufR_frame
    intro i hi
    have := hx (t.length - i) (by omega)
    unfold u32 INPUT_BUF at *; omega

theorem consoleintr_append (s : State) (cs ds : List Int) (h : ∀ c ∈ cs, 0 ≤ c) :
    consoleintr s (cs ++ ds) = (consoleintr s cs).bind fun s1 => consoleintr s1 ds := by
  induction cs generalizing s with
  | nil => simp [consoleintr]
  | cons c cs ih =>
    have hc : ¬ c < 0 := by have := h c (by simp); omega
    simp only [List.cons_append, consoleintr, if_neg hc]
    cases hstep : consoleintr1 s c with
    | none => simp
    | some s1 =>
      simp only [Option.some_bind]
      exact ih s1 (fun d hd => h d (by simp [hd]))

theorem ordinary_nonneg (c : Int) (hc : ordinary c) : 0 ≤ c := by
  have := hc.1; omega

theorem EditIs_congr (s s1 : State) (t : List Int) (h : EditIs s t)
    (hb : s1.buf = s.buf) (he : s1.e = s.e) (hw : s1.w = s.w) : EditIs s1 t := by
  unfold EditIs at *; rw [hb, he, hw]; exact h

/-- Ordinary characters typed at the end of the line (insert offset 0) are
appended to the edit region, as long as the buffer does not fill up. -/
theorem type_run (cs : List Int) : ∀ (s : State) (t : List Int),
    (∀ c ∈ cs, ordinary c) → EditIs s t → s.o = 0 →
    (t.length : Int) + cs.length ≤ 127 → u32 (s.e - s.r) + cs.length ≤ 127 →
    ∃ s1, consoleintr s cs = some s1 ∧ EditIs s1 (t ++ cs) ∧
      u32 (s1.e - s.e) = cs.length ∧ s1.w = s.w ∧ s1.r = s.r ∧ s1.o = 0 ∧
      s1.hist = s.hist ∧ s1.next = s.next ∧ s1.selected = s.selected ∧
      (∀ x, (∀ i : Nat, i ≤ t.length + cs.length → x ≠ (s.w + (i : Int)) % INPUT_BUF) →
        s1.buf x = s.buf x) := by
  induction cs with
  | nil =>
    intro s t _ ht ho _ _
    refine ⟨s, rfl, by simpa using ht, ?_, rfl, rfl, ho, rfl, rfl, rfl, fun _ _ => rfl⟩
    simp [u32]
  | cons c cs ih =>
    intro s t hall ht ho hlen hg
    simp only [List.length_cons, Nat.cast_add, Nat.cast_one] at hlen hg
    have hc : ordinary c := hall c (by simp)
    obtain ⟨s1, h1, ht1, he1, hw1, hr1, ho1, hh1, hn1, hs1, hf1⟩ :=
      insert_step s t c hc ht (by rw [ho]; omega) (by omega) (by unfold INPUT_BUF; omega)
    rw [ho] at ht1
    simp only [Int.toNat_zero, Nat.sub_zero, List.take_length, List.drop_length] at ht1
    obtain ⟨s2, h2, ht2, he2, hw2, hr2, ho2, hh2, hn2, hs2, hf2⟩ :=
      ih s1 (t ++ [c]) (fun d hd => hall d (by simp [hd])) ht1 (by rw [ho1, ho])
        (by simp only [List.length_append, List.length_cons, List.length_nil]; push_cast; omega)
        (by rw [he1, hr1]; unfold u32 at *; omega)
    refine ⟨s2, ?_, ?_, ?_, by rw [hw2, hw1], by rw [hr2, hr1], ho2, by rw [hh2, hh1],
      by rw [hn2, hn1], by rw [hs2, hs1], ?_⟩
    · have hc0 : ¬ c < 0 := by have := hc.1; omega
      simp only [consoleintr, if_neg hc0, h1, Option.some_bind, h2]
    · simpa using ht2
    · simp only [List.length_cons]; push_cast; unfold u32 at *; omega
    · intro x hx
      rw [hf2 x, hf1 x]
      · intro i hi; exact hx i (by simp only [List.length_cons]; omega)
      · intro i hi
        rw [hw1]
        exact hx i (by simp only [List.length_append, List.length_cons, List.length_nil] at hi ⊢; omega)

theorem keyLeft_step (s : State) (h : 0 ≤ s.o ∧ s.o < u32 (s.e - s.w)) :
    ∃ s1, consoleintr1 s KEY_LEFT = some s1 ∧ s1.o = s.o + 1 ∧ s1.buf = s.buf ∧
      s1.e = s.e ∧ s1.w = s.w ∧ s1.r = s.r ∧
      s1.hist = s.hist ∧ s1.next = s.next ∧ s1.selected = s.selected := by
  have hg : u32 s.o < u32 (s.e - s.w) := by unfold u32 at *; omega
  refine ⟨emit (emit { s with o := s.o + 1 } (.uartputc 8)) (.movecur (-1)), ?_,
    rfl, rfl, rfl, rfl, rfl, rfl, rfl, rfl⟩
  simp [consoleintr1, KEY_LEFT, CTRL_P, CTRL_U, CTRL_H, DEL, KEY_UP, KEY_DOWN, C, hg]

/-- Cursor-left pressed `k` times moves the insert offset `k` places into the line. -/
theorem lefts_run (k : Nat) : ∀ (s : State),
    0 ≤ s.o → s.o + k ≤ u32 (s.e - s.w) →
    ∃ s1, consoleintr s (List.replicate k KEY_LEFT) = some s1 ∧ s1.o = s.o + k ∧
      s1.buf = s.buf ∧ s1.e = s.e ∧ s1.w = s.w ∧ s1.r = s.r ∧
      s1.hist = s.hist ∧ s1.next = s.next ∧ s1.selected = s.selected := by
  induction k with
  | zero =>
    intro s _ _
    exact ⟨s, rfl, by simp, rfl, rfl, rfl, rfl, rfl, rfl, rfl⟩
  | succ k ih =>
    intro s h0 hk
    push_cast at hk
    obtain ⟨s1, h1, ho1, hb1, he1, hw1, hr1, hh1, hn1, hs1⟩ := keyLeft_step s ⟨h0, by omega⟩
    obtain ⟨s2, h2, ho2, hb2, he2, hw2, hr2, hh2, hn2, hs2⟩ :=
      ih s1 (by omega) (by rw [ho1, he1, hw1]; omega)
    refine ⟨s2, ?_, by rw [ho2, ho1]; push_cast; ring, by rw [hb2, hb1], by rw [he2, he1],
      by rw [hw2, hw1], by rw [hr2, hr1], by rw [hh2, hh1], by rw [hn2, hn1], by rw [hs2, hs1]⟩
    have : ¬ KEY_LEFT < 0 := by decide
    simp only [List.replicate_succ, consoleintr, if_neg this, h1, Option.some_bind, h2]

theorem endLine_fields (s : State)
    (hn : s.e ≠ s.w → 0 ≤ s.next ∧ s.next < MAX_HISTORY_LENGTH) :
    ∃ s1, endLine s = some s1 ∧ s1.buf = s.buf ∧ s1.e = s.e ∧ s1.w = s.w ∧ s1.r = s.r ∧
      s1.o = 0 ∧ s1.selected = s1.next ∧
      (s.e = s.w → s1.hist = s.hist ∧ s1.next = s.next) ∧
      (s.e ≠ s.w → s1.hist = pushCopy s ∧ s1.next = s.next + 1) := by
  unfold endLine
  by_cases h : s.e ≠ s.w
  · rw [if_pos h, if_pos (hn h)]
    exact ⟨_, rfl, rfl, rfl, rfl, rfl, rfl, rfl, fun h2 => absurd h2 h, fun _ => ⟨rfl, rfl⟩⟩
  · rw [if_neg h]
    exact ⟨_, rfl, rfl, rfl, rfl, rfl, rfl, rfl, fun _ => ⟨rfl, rfl⟩, fun h2 => absurd h2 h⟩

theorem consoleintr1_lineEnd (s : State) (c : Int) (hc : c = NL ∨ c = CTRL_D)
    (hg : u32 (s.e - s.r) < INPUT_BUF) : consoleintr1 s c = insertChar s c := by
  have hcr : c ≠ CR := by rcases hc with h | h <;> (rw [h]; decide)
  unfold consoleintr1
  rcases hc with h | h <;> subst h <;>
    simp [CTRL_P, CTRL_U, CTRL_H, DEL, KEY_UP, KEY_DOWN, KEY_LEFT, KEY_RIGHT, C, NL, CR,
      CTRL_D, hg]

theorem consoleintr1_CR (s : State) (hg : u32 (s.e - s.r) < INPUT_BUF) :
    consoleintr1 s CR = insertChar s NL := by
  unfold consoleintr1
  simp [CTRL_P, CTRL_U, CTRL_H, DEL, KEY_UP, KEY_DOWN, KEY_LEFT, KEY_RIGHT, C, NL, CR, hg]

theorem shiftBufR_zero (e : Int) (b : Int → Int) : shiftBufR e 0 b = b := rfl

/-- A line-ending code accepted by the guard: it is appended at the end of the
line whatever the insert offset, and the line is committed. -/
theorem lineEnd_step (s : State) (c : Int) (hc : c = NL ∨ c = CTRL_D)
    (hn : s.e ≠ s.w → 0 ≤ s.next ∧ s.next < MAX_HISTORY_LENGTH) :
    ∃ s1, insertChar s c = some s1 ∧ s1.buf = upd s.buf (s.e % INPUT_BUF) c ∧
      s1.e = u32 (s.e + 1) ∧ s1.w = u32 (s.e + 1) ∧ s1.r = s.r ∧ s1.o = 0 ∧
      s1.selected = s1.next ∧
      (s.e = s.w → s1.hist = s.hist ∧ s1.next = s.next) ∧
      (s.e ≠ s.w → s1.hist = pushCopy s ∧ s1.next = s.next + 1) := by
  obtain ⟨s1, h1, hb1, he1, hw1, hr1, ho1, hs1, hA, hB⟩ := endLine_fields s hn
  obtain ⟨s2, h2, hb2, he2, hw2, hr2, ho2, hh2, hn2, hs2⟩ := insertChar_end s s1 c hc h1
  have hch : toChar c = c := by rcases hc with h | h <;> (rw [h]; decide)
  refine ⟨s2, h2, ?_, by rw [he2, he1], by rw [hw2, he1], by rw [hr2, hr1], by rw [ho2, ho1],
    by rw [hs2, hn2, hs1], ?_, ?_⟩
  · rw [hb2, ho1, hb1, he1, hch]; simp [shiftBufR_zero]
  · intro h; rw [hh2, hn2]; exact hA h
  · intro h; rw [hh2, hn2]; exact hB h

theorem region_getElem (buf : Int → Int) (a : Int) (n i : Nat) :
    (region buf a n)[i]? = if i < n then some (buf ((a + (i : Int)) % INPUT_BUF)) else none := by
  unfold region
  rw [List.getElem?_map]
  by_cases h : i < n
  · rw [if_pos h, List.getElem?_range h]; rfl
  · rw [if_neg h, List.getElem?_eq_none (by simp; omega)]; rfl

theorem region_eq (buf : Int → Int) (a : Int) (n : Nat) (t : List Int) (hl : t.length = n)
    (h : ∀ i : Nat, i < n → t[i]? = some (buf ((a + (i : Int)) % INPUT_BUF))) :
    region buf a n = t := by
  apply List.ext_getElem?
  intro i
  rw [region_getElem]
  by_cases hi : i < n
  · rw [if_pos hi, h i hi]
  · rw [if_neg hi, List.getElem?_eq_none (by omega)]

/-- Committing an edit region that starts at the read index: the committed
region is the edited text followed by the line-ending code. -/
theorem commit_region (sc sd : State) (t : List Int) (c : Int) (ht : EditIs sc t)
    (hlen : t.length ≤ 127) (hrw : sc.w = sc.r)
    (hb : sd.buf = upd sc.buf (sc.e % INPUT_BUF) c) (hw : sd.w = u32 (sc.e + 1))
    (hr : sd.r = sc.r) : committed sd = t ++ [c] := by
  obtain ⟨hL, hcells⟩ := ht
  have hcnt : (u32 (sd.w - sd.r)).toNat = t.length + 1 := by
    rw [hw, hr, ← hrw]; unfold u32 at *; omega
  unfold committed
  rw [hcnt]
  apply region_eq
  · simp
  · intro i hi
    rw [hb, hr, ← hrw]
    by_cases h1 : i < t.length
    · have hne : (sc.w + (i : Int)) % INPUT_BUF ≠ sc.e % INPUT_BUF := by
        unfold u32 INPUT_BUF at *; omega
      rw [upd_other _ _ _ _ hne, ← hcells i h1, List.getElem?_append_left h1]
    · have hi2 : i = t.length := by omega
      have heq : (sc.w + (i : Int)) % INPUT_BUF = sc.e % INPUT_BUF := by
        unfold u32 INPUT_BUF at *; omega
      rw [heq, upd_same, List.getElem?_append_right (by omega), hi2]
      simp

theorem guard_of_edit (s : State) (t : List Int) (ht : EditIs s t) (hrw : s.w = s.r)
    (n : Int) (hlen : (t.length : Int) < n) : u32 (s.e - s.r) < n := by
  have := ht.1; rw [hrw] at this; omega

/-- Mid-line insertion round trip, for a history write index that is a slot
of the ring: from an empty line buffer (`r = w = e`, `o = 0`) with
`0 <= next < 20`, the codes of a string `str` of at most 126 ordinary
characters, then `k <= |str|` cursor-left codes, then an ordinary character
`X`, then newline, are all accepted and leave the committed region `[r, w)`
equal to `str[0 .. |str|-k) ++ [X] ++ str[|str|-k ..) ++ [NL]`, with `w = e`,
`o = 0` and `r` unmoved. -/
theorem midline_insertion_valid_slot (s0 : State) (str : List Int) (k : Nat) (X : Int)
    (hempty : s0.r = s0.w ∧ s0.w = s0.e ∧ s0.o = 0)
    (hnext : 0 ≤ s0.next ∧ s0.next < MAX_HISTORY_LENGTH)
    (hstr : ∀ c ∈ str, ordinary c) (hlen : str.length ≤ 126) (hk : k ≤ str.length)
    (hX : ordinary X) :
    ∃ s1, consoleintr s0 (str ++ List.replicate k KEY_LEFT ++ [X, NL]) = some s1 ∧
      committed s1 = str.take (str.length - k) ++ [X] ++ str.drop (str.length - k) ++ [NL] ∧
      s1.w = s1.e ∧ s1.o = 0 ∧ s1.r = s0.r := by
  obtain ⟨hrw, hwe, ho⟩ := hempty
  have hE0 : EditIs s0 [] := ⟨by rw [hwe]; simp [u32], fun i hi => by simp at hi⟩
  -- the string is typed
  obtain ⟨sa, ha, hta, hea, hwa, hra, hoa, hha, hna, hsa, _⟩ :=
    type_run str s0 [] hstr hE0 ho (by simp; omega)
      (by have h1 := guard_of_edit s0 [] hE0 hrw.symm 1 (by simp); omega)
  simp only [List.nil_append] at hta
  have hrwa : sa.w = sa.r := by rw [hwa, hra, hrw]
  -- the cursor moves left
  obtain ⟨sb, hb, hob, hbb, heb, hwb, hrb, hhb, hnb, hsb⟩ :=
    lefts_run k sa (by omega) (by rw [hoa, hta.1]; omega)
  have htb : EditIs sb str := EditIs_congr sa sb str hta hbb heb hwb
  have hrwb : sb.w = sb.r := by rw [hwb, hrb, hrwa]
  -- the character is inserted
  obtain ⟨sc, hc, htc, hec, hwc, hrc, hoc, hhc, hnc, hsc, _⟩ :=
    insert_step sb str X hX htb (by rw [hob, hoa]; omega) hlen
      (guard_of_edit sb str htb hrwb _ (by unfold INPUT_BUF; omega))
  have hpos : str.length - sb.o.toNat = str.length - k := by rw [hob, hoa]; simp
  rw [hpos] at htc
  have hrwc : sc.w = sc.r := by rw [hwc, hrc, hrwb]
  have hlc : (str.take (str.length - k) ++ X :: str.drop (str.length - k)).length
      = str.length + 1 := by
    simp only [List.length_append, List.length_cons, List.length_take, List.length_drop]; omega
  -- the line is committed
  have hgd : u32 (sc.e - sc.r) < INPUT_BUF :=
    guard_of_edit sc _ htc hrwc _ (by rw [hlc]; unfold INPUT_BUF; omega)
  obtain ⟨sd, hd, hbd, hed, hwd, hrd, hod, _, _, _⟩ :=
    lineEnd_step sc NL (Or.inl rfl)
      (fun _ => by rw [hnc, hnb, hna]; exact hnext)
  refine ⟨sd, ?_, ?_, by rw [hwd, hed], hod, by rw [hrd, hrc, hrb, hra]⟩
  · have hpos1 : ∀ c ∈ str, 0 ≤ c := fun c hc => ordinary_nonneg c (hstr c hc)
    have hpos2 : ∀ c ∈ str ++ List.replicate k KEY_LEFT, 0 ≤ c := by
      intro c hc
      rcases List.mem_append.1 hc with h | h
      · exact hpos1 c h
      · rw [(List.mem_replicate.1 h).2]; decide
    rw [consoleintr_append _ _ _ hpos2, consoleintr_append _ _ _ hpos1, ha]
    simp only [Option.some_bind, hb]
    have hX0 : ¬ X < 0 := by have := hX.1; omega
    have hN0 : ¬ NL < 0 := by decide
    simp only [consoleintr, if_neg hX0, if_neg hN0, hc, Option.some_bind,
      consoleintr1_lineEnd sc NL (Or.inl rfl) hgd, hd]
  · rw [commit_region sc sd _ NL htc (by rw [hlc]; omega) hrwc hbd hwd hrd]
    simp

theorem midline_insertion_valid_slot_example :
    ∃ s1, consoleintr init ([97, 98, 99] ++ List.replicate 2 KEY_LEFT ++ [88, NL]) = some s1 ∧
      committed s1 = [97, 88, 98, 99, 10] ∧ s1.w = s1.e ∧ s1.o = 0 ∧ s1.r = init.r :=
  midline_insertion_valid_slot init [97, 98, 99] 2 88 ⟨rfl, rfl, rfl⟩ (by decide) (by decide)
    (by decide) (by decide) (by decide)

/-- The run behind the forced commit: from an empty line buffer with
`r = w = e = 0` and `o = 0`, 128 ordinary characters are all accepted, the line
is committed at the 128th, and the history ring is not touched. -/
theorem overflow_run (s0 : State) (cs : List Int)
    (h0 : s0.r = 0 ∧ s0.w = 0 ∧ s0.e = 0 ∧ s0.o = 0)
    (hlen : cs.length = 128) (hord : ∀ c ∈ cs, ordinary c) :
    (∀ k : Nat, k < 128 → ∃ s, consoleintr s0 (cs.take k) = some s ∧ s.w = 0) ∧
    ∃ s, consoleintr s0 cs = some s ∧ s.w = 128 ∧ s.e = 128 ∧ s.r = 0 ∧ s.o = 0 ∧
      editRegion s = [] ∧ committed s = cs ∧
      s.hist = s0.hist ∧ s.next = s0.next ∧ s.selected = s0.selected := by
  obtain ⟨hr, hw, he, ho⟩ := h0
  have hE0 : EditIs s0 [] := ⟨by rw [hw, he]; simp [u32], fun i hi => by simp at hi⟩
  have hg0 : u32 (s0.e - s0.r) = 0 := by rw [hr, he]; simp [u32]
  constructor
  · intro k hk
    obtain ⟨sa, ha, _, _, hwa, _⟩ :=
      type_run (cs.take k) s0 [] (fun c hc => hord c (List.mem_of_mem_take hc)) hE0 ho
        (by simp only [List.length_nil, List.length_take]; push_cast; omega)
        (by rw [hg0]; simp only [List.length_take]; push_cast; omega)
    exact ⟨sa, ha, by rw [hwa, hw]⟩
  · obtain ⟨c, hc⟩ : ∃ c, cs.drop 127 = [c] := List.length_eq_one.mp (by simp [hlen])
    have hsplit : cs = cs.take 127 ++ [c] := by rw [← hc, List.take_append_drop]
    have hcord : ordinary c := hord c (by rw [hsplit]; simp)
    have hl127 : (cs.take 127).length = 127 := by simp [hlen]
    obtain ⟨sa, ha, hta, hea, hwa, hra, hoa, hha, hna, hsa, _⟩ :=
      type_run (cs.take 127) s0 [] (fun c hc => hord c (List.mem_of_mem_take hc)) hE0 ho
        (by rw [hl127]; simp) (by rw [hg0, hl127]; simp)
    simp only [List.nil_append] at hta
    rw [hl127, he] at hea
    have hea2 : u32 (sa.e - sa.r) = INPUT_BUF - 1 := by
      rw [hra, hr]; unfold INPUT_BUF; simpa using hea
    obtain ⟨sd, hd, hbd, hed, hwd, hrd, hod, hhd, hnd, hsd⟩ :=
      insertChar_full sa c ⟨hcord.2.2.1, hcord.2.2.2.2.1⟩ hea2
    have he128 : u32 (sa.e + 1) = 128 := by
      unfold u32 at *; push_cast at hea; omega
    refine ⟨sd, ?_, by rw [hwd, he128], by rw [hed, he128], by rw [hrd, hra, hr],
      by rw [hod, hoa], ?_, ?_, by rw [hhd, hha], by rw [hnd, hna], by rw [hsd, hsa]⟩
    · have hpos1 : ∀ c ∈ cs.take 127, 0 ≤ c :=
        fun c hc => ordinary_nonneg c (hord c (List.mem_of_mem_take hc))
      have hc0 : ¬ c < 0 := by have := hcord.1; omega
      rw [hsplit, consoleintr_append _ _ _ hpos1, ha]
      simp only [Option.some_bind, consoleintr, if_neg hc0,
        consoleintr1_ordinary sa c hcord (by rw [hea2]; decide), hd]
    · unfold editRegion
      rw [hed, hwd]
      simp [u32, region]
    · have := commit_region sa sd (cs.take 127) c hta (by rw [hl127]) (by rw [hwa, hra, hw, hr])
        (by rw [hbd, hoa, toChar_ordinary c hcord]; simp [shiftBufR_zero]) hwd hrd
      rw [this, ← hsplit]

theorem replicate_ordinary (n : Nat) : ∀ c ∈ List.replicate n (97 : Int), ordinary c := by
  intro c hc
  rw [List.eq_of_mem_replicate hc]
  decide

/-- C3. Forced overflow: from an empty line buffer with `r = w = e = 0` and
`o = 0`, 128 ordinary characters are all accepted; `w` is still 0 after each
of the first 127 and becomes 128 at the 128th, after which `w = e = r + 128`,
the edit region is empty and the committed region `[r, w)` is exactly the 128
characters typed, in order, with no newline added. -/
theorem C3_forced_overflow (s0 : State) (cs : List Int)
    (h0 : s0.r = 0 ∧ s0.w = 0 ∧ s0.e = 0 ∧ s0.o = 0)
    (hlen : cs.length = 128) (hord : ∀ c ∈ cs, ordinary c) :
    (∀ k : Nat, k < 128 → ∃ s, consoleintr s0 (cs.take k) = some s ∧ s.w = s0.w) ∧
    ∃ s, consoleintr s0 cs = some s ∧ s.w = s.e ∧ s.e = s.r + 128 ∧ s.r = s0.r ∧
      s.w ≠ s0.w ∧ editRegion s = [] ∧ committed s = cs ∧ NL ∉ committed s := by
  obtain ⟨hpre, s, hs, hw, he, hr, _, hed, hcm, _⟩ := overflow_run s0 cs h0 hlen hord
  refine ⟨fun k hk => ?_, s, hs, by rw [hw, he], by rw [he, hr]; rfl, by rw [hr, h0.1],
    by rw [hw, h0.2.1]; decide, hed, hcm, ?_⟩
  · obtain ⟨t, ht, hwt⟩ := hpre k hk
    exact ⟨t, ht, by rw [hwt, h0.2.1]⟩
  · rw [hcm]
    intro hmem
    exact (hord NL hmem).2.2.1 rfl

theorem C3_forced_overflow_witness :
    ∃ s, consoleintr init (List.replicate 128 97) = some s ∧ s.w = s.e ∧ s.e = s.r + 128 ∧
      s.r = init.r ∧ s.w ≠ init.w ∧ editRegion s = [] ∧
      committed s = List.replicate 128 97 ∧ NL ∉ committed s :=
  (C3_forced_overflow init (List.replicate 128 97) ⟨rfl, rfl, rfl, rfl⟩ (by simp)
    (replicate_ordinary 128)).2

/-- C1 (failing input). From the boot state, 127 ordinary characters, one
cursor-left and one more ordinary character are all accepted; the last one
fills the buffer, the line is committed with the insert offset still 1, and
the resulting state has `o = 1 > 0 = e − w`: the invariant is broken. -/
theorem C1_invariant_broken_by_forced_commit :
    ∃ s, consoleintr init (List.replicate 127 97 ++ [KEY_LEFT, 98]) = some s ∧
      s.r = 0 ∧ s.w = 128 ∧ s.e = 128 ∧ s.o = 1 ∧ ¬ BufInv s := by
  have hE0 : EditIs init [] := ⟨by decide, fun i hi => by simp at hi⟩
  obtain ⟨sa, ha, hta, hea, hwa, hra, hoa, _⟩ :=
    type_run (List.replicate 127 97) init [] (replicate_ordinary 127) hE0 rfl
      (by simp) (by simp [init, u32])
  simp only [List.nil_append, List.length_replicate] at hta hea
  have hw0 : sa.w = 0 := hwa
  have hr0 : sa.r = 0 := hra
  have hL : u32 (sa.e - sa.w) = 127 := by simpa using hta.1
  obtain ⟨sb, hb, hob, hbb, heb, hwb, hrb, _⟩ :=
    keyLeft_step sa ⟨by omega, by rw [hoa, hL]; decide⟩
  have hg : u32 (sb.e - sb.r) = INPUT_BUF - 1 := by
    rw [heb, hrb, hr0, ← hw0, hL]; rfl
  have h98 : ordinary 98 := by decide
  obtain ⟨sd, hd, _, hed, hwd, hrd, hod, _⟩ :=
    insertChar_full sb 98 ⟨by decide, by decide⟩ hg
  have he128 : u32 (sb.e + 1) = 128 := by
    rw [heb]; rw [hw0] at hL; unfold u32 at *; omega
  have hod1 : sd.o = 1 := by rw [hod, hob, hoa]; rfl
  refine ⟨sd, ?_, by rw [hrd, hrb, hr0], by rw [hwd, he128], by rw [hed, he128], hod1, ?_⟩
  · have hpos : ∀ c ∈ List.replicate 127 (97 : Int), 0 ≤ c :=
      fun c hc => ordinary_nonneg c (replicate_ordinary 127 c hc)
    rw [consoleintr_append _ _ _ hpos, ha]
    have hk : ¬ KEY_LEFT < 0 := by decide
    have h9 : ¬ (98 : Int) < 0 := by decide
    simp only [Option.some_bind, consoleintr, if_neg hk, if_neg h9, hb,
      consoleintr1_ordinary sb 98 h98 (by rw [hg]; decide), hd]
  · unfold BufInv
    rw [hod1, hed, hwd]
    omega

/-- Every accepted insertion leaves a trace: the result of `insertChar`, when
there is one, has emitted at least the echo of the code. -/
theorem insertChar_out (s s1 : State) (c : Int) (h : insertChar s c = some s1) :
    s.out.length < s1.out.length := by
  unfold insertChar at h
  cases h0 : (if endsLine s c then endLine s else some s) with
  | none => rw [h0] at h; simp at h
  | some t =>
    have ht : s.out.length ≤ t.out.length := by
      by_cases he : endsLine s c
      · rw [if_pos he] at h0
        unfold endLine at h0
        split at h0
        · split at h0
          · injection h0 with h0; rw [← h0]; simp [emit]
          · exact absurd h0 (by simp)
        · injection h0 with h0; rw [← h0]; simp [emit]
      · rw [if_neg he] at h0
        injection h0 with h0; rw [h0]
    rw [h0] at h
    simp only [Option.some_bind, shiftRight_eq, reecho_eq, emit] at h
    split at h <;> (injection h with h; rw [← h]; simp; omega)

/-- C4 (counterexample). In the state reached from boot by 128 ordinary
characters the buffer is full (`e − r = 128`), and a newline, a carriage
return or an end-of-input code is dropped: the state is left as it is. -/
theorem C4_line_end_rejected_when_full :
    ∃ s, consoleintr init (List.replicate 128 97) = some s ∧ u32 (s.e - s.r) = 128 ∧
      consoleintr1 s NL = some s ∧ consoleintr1 s CR = some s ∧
      consoleintr1 s CTRL_D = some s := by
  obtain ⟨_, s, hs, hw, he, hr, _⟩ :=
    overflow_run init (List.replicate 128 97) ⟨rfl, rfl, rfl, rfl⟩ (by simp)
      (replicate_ordinary 128)
  have hfull : u32 (s.e - s.r) = 128 := by rw [he, hr]; decide
  have hg : ¬ u32 (s.e - s.r) < INPUT_BUF := by rw [hfull]; decide
  refine ⟨s, hs, hfull, ?_, ?_, ?_⟩ <;>
    simp [consoleintr1, CTRL_P, CTRL_U, CTRL_H, DEL, KEY_UP, KEY_DOWN, KEY_LEFT, KEY_RIGHT,
      C, NL, CR, CTRL_D, hg]

/-- C4 (amended). For every state and every non-zero code handled by the
default branch of `consoleintr` (not an editing, arrow or process-dump code),
the code is silently rejected, leaving the whole state as it is, if and only
if the buffer is full (`e − r ≥ 128` in unsigned arithmetic), whether or not
the code ends a line. -/
theorem C4_rejected_iff_full (s : State) (c : Int) (hc0 : c ≠ 0)
    (hdef : c ≠ CTRL_P ∧ c ≠ CTRL_U ∧ c ≠ CTRL_H ∧ c ≠ DEL ∧ c ≠ KEY_UP ∧ c ≠ KEY_DOWN ∧
      c ≠ KEY_LEFT ∧ c ≠ KEY_RIGHT) :
    consoleintr1 s c = some s ↔ INPUT_BUF ≤ u32 (s.e - s.r) := by
  obtain ⟨h1, h2, h3, h4, h5, h6, h7, h8⟩ := hdef
  unfold consoleintr1
  rw [if_neg h1, if_neg h2, if_neg (by tauto), if_neg h5, if_neg h6, if_neg h7, if_neg h8]
  by_cases hg : u32 (s.e - s.r) < INPUT_BUF
  · rw [if_pos ⟨hc0, hg⟩]
    constructor
    · intro h
      have := insertChar_out s s _ h
      omega
    · intro h; omega
  · rw [if_neg (by tauto)]
    constructor
    · intro _; omega
    · intro _; rfl

theorem C4_rejected_iff_full_witness :
    (consoleintr1 init 97 = some init ↔ INPUT_BUF ≤ u32 (init.e - init.r)) ∧
      ¬ INPUT_BUF ≤ u32 (init.e - init.r) :=
  ⟨C4_rejected_iff_full init 97 (by decide) (by decide), by decide⟩

/-- C9 (failing input). From the boot state, 128 ordinary characters force a
commit of a non-empty line (`w` moves from 0 to `e = 128`), yet the history
ring is left untouched: `next` is still 0, `selected` is still 0 and no slot
has been written. -/
theorem C9_forced_commit_skips_history :
    ∃ s, consoleintr init (List.replicate 128 97) = some s ∧ s.w = 128 ∧ s.e = 128 ∧
      committed s = List.replicate 128 97 ∧
      s.next = 0 ∧ s.selected = 0 ∧ s.hist = init.hist := by
  obtain ⟨_, s, hs, hw, he, _, _, _, hc, hh, hn, hsel⟩ :=
    overflow_run init (List.replicate 128 97) ⟨rfl, rfl, rfl, rfl⟩ (by simp)
      (replicate_ordinary 128)
  exact ⟨s, hs, hw, he, hc, hn, hsel, hh⟩

/-- C10. Committing an empty line leaves the history untouched: in every state
with `w = e` and `e − r < 128`, a newline, carriage-return or end-of-input code
is accepted, leaves every history slot and `next` as they are, stores the
terminator at `e` and advances both `w` and `e` by one. -/
theorem C10_empty_commit_keeps_history (s : State) (c : Int)
    (hc : c = NL ∨ c = CR ∨ c = CTRL_D) (hwe : s.w = s.e)
    (hg : u32 (s.e - s.r) < INPUT_BUF) :
    ∃ s1, consoleintr1 s c = some s1 ∧ s1.hist = s.hist ∧ s1.next = s.next ∧
      s1.e = u32 (s.e + 1) ∧ s1.w = u32 (s.w + 1) ∧ s1.r = s.r ∧
      s1.buf = upd s.buf (s.e % INPUT_BUF) (if c = CR then NL else c) := by
  have hstep : consoleintr1 s c = insertChar s (if c = CR then NL else c) := by
    rcases hc with h | h | h
    · rw [consoleintr1_lineEnd s c (Or.inl h) hg, if_neg (by rw [h]; decide)]
    · rw [h, consoleintr1_CR s hg, if_pos rfl]
    · rw [consoleintr1_lineEnd s c (Or.inr h) hg, if_neg (by rw [h]; decide)]
  have hc2 : (if c = CR then NL else c) = NL ∨ (if c = CR then NL else c) = CTRL_D := by
    rcases hc with h | h | h
    · left; rw [h]; decide
    · left; rw [h]; decide
    · right; rw [h]; decide
  obtain ⟨s1, h1, hb, he, hw, hr, _, _, hA, _⟩ :=
    lineEnd_step s _ hc2 (fun h => absurd hwe.symm h)
  exact ⟨s1, by rw [hstep, h1], (hA hwe.symm).1, (hA hwe.symm).2, he, by rw [hw, hwe], hr, hb⟩

theorem C10_empty_commit_keeps_history_witness :
    ∃ s1, consoleintr1 init NL = some s1 ∧ s1.hist = init.hist ∧ s1.next = init.next ∧
      s1.e = u32 (init.e + 1) ∧ s1.w = u32 (init.w + 1) ∧ s1.r = init.r ∧
      s1.buf = upd init.buf (init.e % INPUT_BUF) (if NL = CR then NL else NL) :=
  C10_empty_commit_keeps_history init NL (Or.inl rfl) rfl (by decide)

theorem region_succ (buf : Int → Int) (a : Int) (n : Nat) :
    region buf a (n + 1) = buf (a % INPUT_BUF) :: region buf (a + 1) n := by
  apply List.ext_getElem?
  intro i
  cases i with
  | zero => rw [region_getElem]; simp
  | succ j =>
    rw [region_getElem, List.getElem?_cons_succ, region_getElem]
    have : (a + ((j + 1 : Nat) : Int)) % INPUT_BUF = (a + 1 + (j : Int)) % INPUT_BUF := by
      congr 1; push_cast; ring
    rw [this]
    by_cases h : j < n
    · rw [if_pos h, if_pos (by omega)]
    · rw [if_neg h, if_neg (by omega)]

theorem region_shift (buf : Int → Int) (a b : Int) (n : Nat)
    (h : a % INPUT_BUF = b % INPUT_BUF) : region buf a n = region buf b n := by
  unfold region
  apply List.map_congr_left
  intro i _
  congr 1
  unfold INPUT_BUF at *
  omega

/-- The committed region of a state that has something to read: its first
cell is the one `consoleread` reads, the rest is the committed region once
`r` has been incremented. -/
theorem committed_cons (s : State) (x : Int) (xs : List Int) (h : committed s = x :: xs) :
    s.r ≠ s.w ∧ s.buf (s.r % INPUT_BUF) = x ∧ committed { s with r := u32 (s.r + 1) } = xs := by
  unfold committed at h
  have hlen : (u32 (s.w - s.r)).toNat = xs.length + 1 := by
    have := congrArg List.length h
    simpa [region] using this
  rw [hlen, region_succ] at h
  injection h with h1 h2
  refine ⟨?_, h1, ?_⟩
  · intro heq
    rw [heq] at hlen
    simp [u32] at hlen
  · unfold committed
    have hl2 : (u32 (s.w - u32 (s.r + 1))).toNat = xs.length := by
      unfold u32 at *; omega
    simp only [hl2]
    exact (region_shift _ _ _ _ (by unfold u32 INPUT_BUF; omega)).trans h2

/-- The read loop on a committed region whose first newline is at offset
`|p|`, with no end-of-input code before it: `min(n, |p| + 1)` cells are copied. -/
theorem read_loop_newline (killed : Bool) (target : Int) (n : Nat) :
    ∀ (s : State) (dst p q : List Int),
      committed s = p ++ NL :: q → (∀ x ∈ p, x ≠ NL ∧ x ≠ CTRL_D) →
      consoleread_loop killed target (n + 1) dst s =
        .ret (toInt32 (u32 (target - ((n + 1 - min (n + 1) (p.length + 1) : Nat) : Int))))
          (dst ++ (p ++ [NL]).take (n + 1))
          { s with r := u32 (s.r + (min (n + 1) (p.length + 1) : Nat)) } := by
  induction n with
  | zero =>
    intro s dst p q hc hp
    cases p with
    | nil =>
      obtain ⟨hrw, hx, _⟩ := committed_cons s NL q hc
      simp [consoleread_loop, hrw, hx, NL, CTRL_D, C]
    | cons x xs =>
      obtain ⟨hrw, hx, _⟩ := committed_cons s x (xs ++ NL :: q) hc
      have hxx := hp x (by simp)
      simp [consoleread_loop, hrw, hx, hxx.1, hxx.2]
  | succ m ih =>
    intro s dst p q hc hp
    cases p with
    | nil =>
      obtain ⟨hrw, hx, _⟩ := committed_cons s NL q hc
      simp [consoleread_loop, hrw, hx, NL, CTRL_D, C]
    | cons x xs =>
      obtain ⟨hrw, hx, hrest⟩ := committed_cons s x (xs ++ NL :: q) hc
      have hxx := hp x (by simp)
      rw [consoleread_loop]
      simp only [hrw, if_false, hx, hxx.1, hxx.2]
      rw [ih _ _ xs q hrest (fun y hy => hp y (by simp [hy]))]
      simp only [List.length_cons, List.cons_append, List.take_succ_cons, List.append_assoc,
        List.singleton_append]
      have e1 : min (m + 1 + 1) (xs.length + 1 + 1) = min (m + 1) (xs.length + 1) + 1 := by omega
      have e2 : m + 1 + 1 - (min (m + 1) (xs.length + 1) + 1) = m + 1 - min (m + 1) (xs.length + 1) := by
        omega
      rw [e1, e2]
      congr 1
      simp only [State.mk.injEq, true_and, and_true]
      unfold u32; push_cast; omega

theorem split_at_index (l : List Int) (k : Nat) (x : Int) (h : l[k]? = some x) :
    l = l.take k ++ x :: l.drop (k + 1) := by
  obtain ⟨hlt, hx⟩ := List.getElem?_eq_some.1 h
  have := List.drop_eq_getElem_cons hlt
  rw [hx] at this
  rw [← this, List.take_append_drop]

theorem mem_take_index (l : List Int) (k : Nat) (x : Int) (h : x ∈ l.take k) :
    ∃ i : Nat, i < k ∧ l[i]? = some x := by
  obtain ⟨i, hi, hx⟩ := List.getElem_of_mem h
  have hik : i < k := by
    have := List.length_take_le k l; omega
  refine ⟨i, hik, ?_⟩
  rw [← List.getElem?_take_of_lt hik, List.getElem?_eq_getElem hi, hx]

/-- C5. `consoleread` stops at a newline, inclusive: in every state whose
committed region `[r, w)` has its first newline at offset `k` with no
end-of-input code before it, a call with `1 <= n` returns `m = min(n, k + 1)`
without suspending, having written the first `m` cells of the committed region
to `dst` in order; `r` is advanced by `m` and nothing else changes. -/
theorem C5_read_stops_at_newline (s : State) (killed : Bool) (n : Int) (k : Nat)
    (hn : 1 ≤ n) (hn31 : n ≤ 2147483647)
    (hk : (committed s)[k]? = some NL)
    (hfirst : ∀ i : Nat, i < k →
      (committed s)[i]? ≠ some NL ∧ (committed s)[i]? ≠ some CTRL_D) :
    consoleread killed n s =
      .ret (min n (k + 1)) ((committed s).take (min n.toNat (k + 1)))
        { s with r := u32 (s.r + min n (k + 1)) } := by
  have hsplit := split_at_index _ k NL hk
  have hp : ∀ x ∈ (committed s).take k, x ≠ NL ∧ x ≠ CTRL_D := by
    intro x hx
    obtain ⟨i, hi, hxi⟩ := mem_take_index _ k x hx
    have := hfirst i hi
    rw [hxi] at this
    exact ⟨fun h => this.1 (by rw [h]), fun h => this.2 (by rw [h])⟩
  have hklen : k < (committed s).length := (List.getElem?_eq_some.1 hk).1
  have hlp : ((committed s).take k).length = k := by
    rw [List.length_take]; omega
  obtain ⟨f, hf⟩ : ∃ f : Nat, n.toNat = f + 1 := ⟨n.toNat - 1, by omega⟩
  unfold consoleread
  rw [if_pos (by omega), hf,
    read_loop_newline killed (u32 n) f s [] _ _ hsplit hp, hlp]
  have htake : (List.take k (committed s) ++ [NL]).take (f + 1)
      = (committed s).take (min (f + 1) (k + 1)) := by
    conv_rhs => rw [hsplit]
    rw [List.take_append_eq_append_take, List.take_append_eq_append_take]
    simp only [hlp, List.length_take]
    have e1 : min (f + 1) (k + 1) - k = min (f + 1 - k) 1 := by omega
    have e2 : List.take (min (f + 1) (k + 1)) (List.take k (committed s))
        = List.take (f + 1) (List.take k (committed s)) := by
      rw [List.take_take, List.take_take]; congr 1; omega
    rw [e1, e2]
    congr 1
    cases hh : f + 1 - k with
    | zero => simp
    | succ j => simp
  rw [List.nil_append, htake]
  congr 1
  · unfold toInt32 u32; omega
  · simp only [State.mk.injEq, true_and, and_true]
    congr 1; omega

/-- The read loop on a committed region that holds `p`, free of newline and
end-of-input codes, then an end-of-input code: `p` is copied; the code is
consumed if nothing had been copied by this call, and left in place otherwise. -/
theorem read_loop_eof (killed : Bool) (target : Int) (f : Nat) (p : List Int) :
    ∀ (s : State) (dst q : List Int),
      committed s = p ++ CTRL_D :: q → (∀ x ∈ p, x ≠ NL ∧ x ≠ CTRL_D) →
      consoleread_loop killed target (p.length + f + 1) dst s =
        if u32 ((f : Int) + 1) < target then
          .ret (toInt32 (u32 (target - ((f : Int) + 1)))) (dst ++ p)
            { s with r := u32 (u32 (s.r + p.length + 1) - 1) }
        else
          .ret (toInt32 (u32 (target - ((f : Int) + 1)))) (dst ++ p)
            { s with r := u32 (s.r + p.length + 1) } := by
  induction p with
  | nil =>
    intro s dst q hc _
    obtain ⟨hrw, hx, _⟩ := committed_cons s CTRL_D q hc
    simp only [List.length_nil, Nat.zero_add, consoleread_loop, hrw, if_false, hx, if_true,
      List.append_nil, Nat.cast_zero, add_zero]
  | cons x xs ih =>
    intro s dst q hc hp
    obtain ⟨hrw, hx, hrest⟩ := committed_cons s x (xs ++ CTRL_D :: q) hc
    have hxx := hp x (by simp)
    have hfuel : (x :: xs).length + f + 1 = (xs.length + f + 1) + 1 := by
      simp only [List.length_cons]; omega
    rw [hfuel, consoleread_loop]
    simp only [hrw, if_false, hx, hxx.1, hxx.2]
    rw [ih _ _ q hrest (fun y hy => hp y (by simp [hy]))]
    have e1 : u32 (u32 (s.r + 1) + (xs.length : Int) + 1)
        = u32 (s.r + ((x :: xs).length : Int) + 1) := by
      simp only [List.length_cons]; unfold u32; push_cast; omega
    simp only [e1, List.append_assoc, List.singleton_append]

theorem committed_drop (p : List Int) : ∀ (s : State) (l : List Int),
    committed s = p ++ l → committed { s with r := u32 (s.r + p.length) } = l := by
  induction p with
  | nil =>
    intro s l h
    rw [List.nil_append] at h
    rw [← h]
    unfold committed
    simp only [List.length_nil, Nat.cast_zero, add_zero]
    have e1 : u32 (s.w - u32 s.r) = u32 (s.w - s.r) := by unfold u32; omega
    rw [e1]
    exact region_shift _ _ _ _ (by unfold u32 INPUT_BUF; omega)
  | cons x xs ih =>
    intro s l h
    obtain ⟨_, _, hrest⟩ := committed_cons s x (xs ++ l) h
    have := ih _ l hrest
    have e1 : u32 (u32 (s.r + 1) + (xs.length : Int)) = u32 (s.r + ((x :: xs).length : Int)) := by
      simp only [List.length_cons]; unfold u32; push_cast; omega
    simp only [e1] at this
    exact this

/-- C6. End-of-input handling in `consoleread`: when the committed region
`[r, w)` is `p ++ [C('D')]` with `p` free of newline and end-of-input codes,
(i) if `p` is empty a call with `n >= 1` returns 0, copies nothing and moves
`r` past the code; (ii) if `p` is not empty a call with `n > |p|` returns
`|p|` with `dst = p` and leaves `r` at the code, so that the next call with
`n2 >= 1` returns 0, copies nothing and moves `r` past the code. -/
theorem C6_read_end_of_input (s : State) (killed killed2 : Bool) (n n2 : Int) (p : List Int)
    (hc : committed s = p ++ [CTRL_D]) (hp : ∀ x ∈ p, x ≠ NL ∧ x ≠ CTRL_D)
    (hn : 1 ≤ n ∧ (p.length : Int) < n ∧ n ≤ 2147483647)
    (hn2 : 1 ≤ n2 ∧ n2 ≤ 2147483647) :
    (p = [] → consoleread killed n s = .ret 0 [] { s with r := u32 (s.r + 1) }) ∧
    (p ≠ [] →
      consoleread killed n s = .ret p.length p { s with r := u32 (s.r + p.length) } ∧
      consoleread killed2 n2 { s with r := u32 (s.r + p.length) }
        = .ret 0 [] { s with r := u32 (s.r + p.length + 1) }) := by
  have hzero : ∀ (t : State) (kl : Bool) (m : Int), committed t = [CTRL_D] → 1 ≤ m →
      m ≤ 2147483647 → consoleread kl m t = .ret 0 [] { t with r := u32 (t.r + 1) } := by
    intro t kl m ht hm hm31
    obtain ⟨f, hf⟩ : ∃ f : Nat, m.toNat = f + 1 := ⟨m.toNat - 1, by omega⟩
    have hloop := read_loop_eof kl (u32 m) f [] t [] [] ht (by simp)
    unfold consoleread
    simp only [List.length_nil, Nat.zero_add] at hloop
    rw [if_pos (by omega), hf, hloop, if_neg (by unfold u32; omega)]
    congr 1
    · unfold toInt32 u32; omega
    · simp
  constructor
  · intro hnil
    rw [hnil] at hc
    exact hzero s killed n hc hn.1 hn.2.2
  · intro hne
    have hlen : 1 ≤ p.length := by
      cases p with
      | nil => exact absurd rfl hne
      | cons x xs => simp
    constructor
    · obtain ⟨f, hf⟩ : ∃ f : Nat, n.toNat = p.length + f + 1 :=
        ⟨n.toNat - p.length - 1, by omega⟩
      unfold consoleread
      rw [if_pos (by omega), hf, read_loop_eof killed (u32 n) f p s [] [] hc hp,
        if_pos (by unfold u32; omega)]
      congr 1
      · unfold toInt32 u32; omega
      · simp only [State.mk.injEq, true_and, and_true]
        unfold u32; omega
    · have hrest := committed_drop p s [CTRL_D] hc
      rw [hzero _ killed2 n2 hrest hn2.1 hn2.2]
      congr 1
      simp only [State.mk.injEq, true_and, and_true]
      unfold u32; omega

/-- C7. Cancellation of a read: with `n >= 1`, no committed data (`r = w`) and
the killed flag of the calling task set, `consoleread` returns -1 at once,
without suspending, having written nothing and leaving the state as it is;
the value differs from the end-of-stream value 0. -/
theorem C7_read_cancelled (s : State) (n : Int) (hn : 1 ≤ n) (hrw : s.r = s.w) :
    consoleread true n s = .ret (-1) [] s ∧ (-1 : Int) ≠ 0 := by
  obtain ⟨f, hf⟩ : ∃ f : Nat, n.toNat = f + 1 := ⟨n.toNat - 1, by omega⟩
  refine ⟨?_, by decide⟩
  unfold consoleread
  rw [if_pos (by omega), hf, consoleread_loop, if_pos hrw, if_pos rfl]

theorem C7_read_cancelled_witness :
    consoleread true 1 init = .ret (-1) [] init ∧ (-1 : Int) ≠ 0 :=
  C7_read_cancelled init 1 (by decide) rfl

theorem C6_read_end_of_input_witness :
    consoleread false 5 eofState = .ret 1 [97] { eofState with r := 1 } ∧
      consoleread false 1 { eofState with r := 1 } = .ret 0 [] { eofState with r := 2 } :=
  (C6_read_end_of_input eofState false false 5 1 [97] (by decide) (by decide) (by decide)
    (by decide)).2 (by decide)

theorem C5_read_stops_at_newline_witness :
    consoleread false 5 lineState = .ret 2 [97, NL] { lineState with r := 2 } :=
  C5_read_stops_at_newline lineState false 5 1 (by decide) (by decide) (by decide) (by decide)

/-- C8 (failing input). From the boot state, twenty one-character lines are
accepted and leave `next = selected = 20`, which is not a slot index of the
20-slot ring; the next non-empty line committed writes outside the ring. -/
theorem C8_next_leaves_ring :
    (consoleintr init twentyLines).map (fun s => (s.next, s.selected)) = some (20, 20) ∧
      (consoleintr init (twentyLines ++ [97, NL])).isNone = true := by
  decide

theorem u32_sub_eq_zero (e w : Int) (he : 0 ≤ e ∧ e < 4294967296) (hw : 0 ≤ w ∧ w < 4294967296)
    (h : u32 (e - w) = 0) : e = w := by
  unfold u32 at h; omega

/-- The erase loop on an edit region of `n` cells, none of them a newline:
the region is erased back to `w` with one `BACKSPACE` echoed per cell. -/
theorem eraseLoop_spec (n : Nat) : ∀ (s : State),
    (0 ≤ s.e ∧ s.e < 4294967296) → (0 ≤ s.w ∧ s.w < 4294967296) →
    u32 (s.e - s.w) = (n : Int) →
    (∀ j : Nat, j < n → s.buf ((s.w + (j : Int)) % INPUT_BUF) ≠ NL) →
    eraseLoop n s
      = { s with e := s.w, out := s.out ++ List.replicate n (Out.consputc BACKSPACE) } := by
  induction n with
  | zero =>
    intro s he hw hn _
    have : s.e = s.w := u32_sub_eq_zero s.e s.w he hw (by simpa using hn)
    obtain ⟨buf, r, w, e, o, hist, sel, next, out⟩ := s
    simp only at this
    subst this
    simp [eraseLoop]
  | succ k ih =>
    intro s he hw hn hcells
    have hne : s.e ≠ s.w := by
      intro h; rw [h] at hn; simp [u32] at hn; omega
    have hidx : (s.e - 1) % INPUT_BUF = (s.w + (k : Int)) % INPUT_BUF := by
      unfold u32 INPUT_BUF at *; push_cast at hn; omega
    have hc : cell s (s.e - 1) ≠ NL := by
      rw [cell_eq, hidx]; exact hcells k (by omega)
    rw [eraseLoop, if_pos ⟨hne, hc⟩]
    have hrange : 0 ≤ u32 (s.e - 1) ∧ u32 (s.e - 1) < 4294967296 := by
      unfold u32; omega
    have hlen : u32 (u32 (s.e - 1) - s.w) = (k : Int) := by
      unfold u32 at *; push_cast at hn; omega
    rw [ih (emit { s with e := u32 (s.e - 1) } (.consputc BACKSPACE)) hrange hw hlen
      (fun j hj => hcells j (by omega))]
    simp [emit, List.replicate_succ]

/-- Kill-line on an edit region free of newlines. -/
theorem killLine_spec (s : State)
    (he : 0 ≤ s.e ∧ s.e < 4294967296) (hw : 0 ≤ s.w ∧ s.w < 4294967296)
    (hcells : ∀ j : Nat, j < (u32 (s.e - s.w)).toNat →
      s.buf ((s.w + (j : Int)) % INPUT_BUF) ≠ NL) :
    killLine s =
      { s with
        e := s.w, o := 0,
        out := s.out ++ (Out.movecur s.o ::
          List.replicate (u32 (s.e - s.w)).toNat (Out.consputc BACKSPACE)) } := by
  have h0 : 0 ≤ u32 (s.e - s.w) := by unfold u32; omega
  have h := eraseLoop_spec (u32 (s.e - s.w)).toNat
    { emit s (.movecur s.o) with o := 0 } he hw (by simp only [emit]; omega) hcells
  refine (show killLine s = _ from h).trans ?_
  simp [emit]

theorem region_mem_cells (buf : Int → Int) (a : Int) (n : Nat) (x : Int)
    (h : x ∉ region buf a n) (j : Nat) (hj : j < n) : buf ((a + (j : Int)) % INPUT_BUF) ≠ x := by
  intro heq
  apply h
  unfold region
  exact List.mem_map.2 ⟨j, List.mem_range.2 hj, heq⟩

theorem committed_congr (s s1 : State) (hb : s1.buf = s.buf) (hr : s1.r = s.r) (hw : s1.w = s.w) :
    committed s1 = committed s := by
  unfold committed; rw [hb, hr, hw]

/-- C17. Kill-line erases the whole edit region: in every state that satisfies
the Line Buffer invariant (with `r`, `w`, `e` in the range of `uint`) and whose
edit region `[w, e)` holds no newline, the kill-line code ends with `e = w` and
`o = 0`, emits `movecur(o)` followed by exactly `e − w` `BACKSPACE` codes and
nothing else, and leaves `r`, `w`, the buffer cells, the committed region and
the history ring as they are. -/
theorem C17_kill_line (s : State) (hinv : BufInv s)
    (hrange : 0 ≤ s.r ∧ s.e < 4294967296) (hnl : NL ∉ editRegion s) :
    ∃ s1, consoleintr1 s CTRL_U = some s1 ∧ s1.e = s1.w ∧ s1.o = 0 ∧
      s1.out = s.out ++ Out.movecur s.o ::
        List.replicate (s.e - s.w).toNat (Out.consputc BACKSPACE) ∧
      s1.r = s.r ∧ s1.w = s.w ∧ s1.buf = s.buf ∧ committed s1 = committed s ∧
      s1.hist = s.hist ∧ s1.next = s.next ∧ s1.selected = s.selected := by
  obtain ⟨h1, h2, h3, h4, h5⟩ := hinv
  have he : 0 ≤ s.e ∧ s.e < 4294967296 := ⟨by omega, hrange.2⟩
  have hw : 0 ≤ s.w ∧ s.w < 4294967296 := ⟨by omega, by omega⟩
  have hlen : u32 (s.e - s.w) = s.e - s.w := by unfold u32; omega
  have hk := killLine_spec s he hw
    (fun j hj => region_mem_cells s.buf s.w _ NL hnl j hj)
  rw [hlen] at hk
  refine ⟨killLine s, ?_, ?_, ?_, ?_, ?_, ?_, ?_, ?_, ?_, ?_, ?_⟩
  · simp [consoleintr1, CTRL_U, CTRL_P, C]
  all_goals (rw [hk])
  · exact committed_congr _ _ rfl rfl rfl

theorem C17_kill_line_witness :
    ∃ s1, consoleintr1 abcState CTRL_U = some s1 ∧ s1.e = s1.w ∧ s1.o = 0 ∧
      s1.out = abcState.out ++ Out.movecur abcState.o ::
        List.replicate (abcState.e - abcState.w).toNat (Out.consputc BACKSPACE) ∧
      s1.r = abcState.r ∧ s1.w = abcState.w ∧ s1.buf = abcState.buf ∧
      committed s1 = committed abcState ∧
      s1.hist = abcState.hist ∧ s1.next = abcState.next ∧ s1.selected = abcState.selected :=
  C17_kill_line abcState (by decide) (by decide) (by decide)

/-- C12. Forward recall at the newest boundary is a no-op: in every state with
`selected = next` the recall-next code leaves the whole state (line buffer,
history ring and the trace of effects) as it is, and so does any number of
repetitions of the code. -/
theorem C12_forward_recall_noop (s : State) (n : Nat) (h : s.selected = s.next) :
    consoleintr1 s KEY_DOWN = some s ∧ consoleintr s (List.replicate n KEY_DOWN) = some s := by
  have h1 : consoleintr1 s KEY_DOWN = some s := by
    simp [consoleintr1, KEY_DOWN, KEY_UP, CTRL_P, CTRL_U, CTRL_H, DEL, C, h]
  refine ⟨h1, ?_⟩
  induction n with
  | zero => rfl
  | succ k ih =>
    have hk : ¬ KEY_DOWN < 0 := by decide
    simp only [List.replicate_succ, consoleintr, if_neg hk, h1, Option.some_bind, ih]

theorem C12_forward_recall_noop_witness :
    consoleintr1 init KEY_DOWN = some init ∧
      consoleintr init (List.replicate 3 KEY_DOWN) = some init :=
  C12_forward_recall_noop init 3 rfl

theorem shiftBufL_succ (a : Int) (k : Nat) (b : Int → Int) :
    shiftBufL a (k + 1) b
      = upd (shiftBufL a k b) ((a - 1 + k) % INPUT_BUF) (shiftBufL a k b ((a + k) % INPUT_BUF)) :=
  rfl

theorem shiftLeft_loop (s : State) (n : Nat) :
    forUpTo n (fun i t =>
        { t with
          buf := upd t.buf (u32 (t.e - t.o - 1 + i) % INPUT_BUF) (cell t (t.e - t.o + i)) }) s
      = { s with buf := shiftBufL (s.e - s.o) n s.buf } := by
  induction n with
  | zero => rfl
  | succ k ih =>
    simp only [forUpTo, shiftBufL] at ih ⊢
    rw [ih]
    simp only [cell_eq, u32_mod_buf]

theorem shiftLeft_eq (s : State) :
    shiftLeft s = { s with buf := shiftBufL (s.e - s.o) s.o.toNat s.buf } :=
  shiftLeft_loop s _

theorem shiftBufL_frame (a : Int) (b : Int → Int) (n : Nat) (x : Int)
    (hx : ∀ i : Nat, i < n → x ≠ (a - 1 + (i : Int)) % INPUT_BUF) :
    shiftBufL a n b x = b x := by
  induction n with
  | zero => rfl
  | succ k ih =>
    rw [shiftBufL_succ, upd_other _ _ _ _ (hx k (by omega))]
    exact ih (fun i hi => hx i (by omega))

theorem shiftBufL_spec (a : Int) (b : Int → Int) (n : Nat) (hn : n ≤ 127) (d : Nat)
    (hd : d < n) :
    shiftBufL a n b ((a - 1 + (d : Int)) % INPUT_BUF) = b ((a + (d : Int)) % INPUT_BUF) := by
  induction n with
  | zero => omega
  | succ k ih =>
    rw [shiftBufL_succ]
    by_cases hdk : d = k
    · subst hdk
      rw [upd_same]
      apply shiftBufL_frame
      intro i hi
      unfold INPUT_BUF; omega
    · have hne : (a - 1 + (d : Int)) % INPUT_BUF ≠ (a - 1 + (k : Int)) % INPUT_BUF := by
        unfold INPUT_BUF; omega
      rw [upd_other _ _ _ _ hne]
      exact ih (by omega) (by omega)

theorem backspace_fields (s : State) (h : u32 (s.e - s.o) ≠ s.w) :
    (backspace s).buf = shiftBufL (s.e - s.o) s.o.toNat s.buf ∧
      (backspace s).e = u32 (s.e - 1) ∧ (backspace s).w = s.w ∧ (backspace s).r = s.r ∧
      (backspace s).o = s.o ∧ (backspace s).hist = s.hist ∧ (backspace s).next = s.next ∧
      (backspace s).selected = s.selected := by
  unfold backspace
  rw [if_pos h]
  simp [shiftLeft_eq, reecho_eq, emit]

theorem consoleintr1_backspace (s : State) (c : Int) (hc : c = CTRL_H ∨ c = DEL) :
    consoleintr1 s c = some (backspace s) := by
  rcases hc with h | h <;> subst h <;> simp [consoleintr1, CTRL_P, CTRL_U, CTRL_H, DEL, C]

/-- Backspace with the insertion point inside the line: the character before
the insertion point is deleted and the tail of the line moves left by one. -/
theorem backspace_step (s : State) (t : List Int) (p : Nat)
    (ht : EditIs s t) (hp : 1 ≤ p ∧ p ≤ t.length) (ho : s.o = (t.length : Int) - p)
    (hlen : t.length ≤ 127) :
    u32 (s.e - s.o) ≠ s.w ∧ EditIs (backspace s) (t.eraseIdx (p - 1)) ∧
      (∀ x, (∀ i : Nat, i < t.length → x ≠ (s.w + (i : Int)) % INPUT_BUF) →
        (backspace s).buf x = s.buf x) := by
  obtain ⟨hL, hcells⟩ := ht
  have hne : u32 (s.e - s.o) ≠ s.w := by
    intro h
    have : u32 (u32 (s.e - s.o) - s.w) = p := by unfold u32 at *; omega
    rw [h] at this
    simp [u32] at this
    omega
  obtain ⟨hb, he, hw, _⟩ := backspace_fields s hne
  have hmod : (s.e - s.o) % INPUT_BUF = (s.w + (p : Int)) % INPUT_BUF := by
    unfold u32 INPUT_BUF at *; omega
  refine ⟨hne, ⟨?_, ?_⟩, ?_⟩
  · rw [he, hw, List.length_eraseIdx]
    rw [if_pos (by omega)]
    unfold u32 at *
    omega
  · intro i hi
    rw [List.length_eraseIdx, if_pos (by omega)] at hi
    rw [List.getElem?_eraseIdx, hb, hw]
    by_cases h1 : i < p - 1
    · rw [if_pos h1, shiftBufL_frame]
      · exact hcells i (by omega)
      · intro j hj
        unfold INPUT_BUF at *; omega
    · rw [if_neg h1]
      have hidx : (s.w + (i : Int)) % INPUT_BUF
          = (s.e - s.o - 1 + ((i - (p - 1) : Nat) : Int)) % INPUT_BUF := by
        unfold INPUT_BUF at *; omega
      have hidx2 : (s.e - s.o + ((i - (p - 1) : Nat) : Int)) % INPUT_BUF
          = (s.w + ((i + 1 : Nat) : Int)) % INPUT_BUF := by
        unfold INPUT_BUF at *; omega
      rw [hidx, shiftBufL_spec _ _ _ (by omega) _ (by omega), hidx2]
      exact hcells (i + 1) (by omega)
  · intro x hx
    rw [hb]
    apply shiftBufL_frame
    intro j hj
    have := hx (p - 1 + j) (by omega)
    unfold INPUT_BUF at *; omega

theorem region_congr (b1 b2 : Int → Int) (a : Int) (n : Nat)
    (h : ∀ j : Nat, j < n → b1 ((a + (j : Int)) % INPUT_BUF) = b2 ((a + (j : Int)) % INPUT_BUF)) :
    region b1 a n = region b2 a n := by
  unfold region
  apply List.map_congr_left
  intro j hj
  exact h j (List.mem_range.1 hj)

theorem editRegion_of_EditIs (s : State) (t : List Int) (h : EditIs s t) : editRegion s = t := by
  unfold editRegion
  have hl : (u32 (s.e - s.w)).toNat = t.length := by rw [h.1]; simp
  rw [hl]
  exact region_eq _ _ _ _ rfl h.2

theorem neverFull_head (s : State) (cs : List Int) (h : neverFull s cs = true) :
    u32 (s.e - s.r) < INPUT_BUF := by
  cases cs with
  | nil => simpa [neverFull] using h
  | cons c cs =>
    simp only [neverFull, Bool.and_eq_true, decide_eq_true_eq] at h
    exact h.1

theorem editOp_nonneg (c : Int) (h : editOp c) : 0 ≤ c := by
  rcases h with h | h | h | h | h
  · exact ordinary_nonneg c h
  all_goals (rw [h]; decide)

theorem sim_total (s0 s : State) (ed : ListEditor) (h : Sim s0 s ed) :
    u32 (s.e - s.r) = u32 (s0.w - s0.r) + ed.text.length := by
  obtain ⟨⟨hL, _⟩, _, _, hm, hw, hr, _⟩ := h
  rw [hr]; rw [hw] at hL
  have h0 : 0 ≤ u32 (s0.w - s0.r) := by unfold u32; omega
  have key : ∀ (e w r : Int) (m n : Int), (e - w) % 4294967296 = n → (w - r) % 4294967296 = m →
      0 ≤ m → 0 ≤ n → m + n ≤ 127 → (e - r) % 4294967296 = m + n := by
    intro e w r m n h1 h2 h3 h4 h5; omega
  exact key s.e s0.w s0.r _ _ hL rfl h0 (by omega) hm

theorem sim_insert (s0 s : State) (ed : ListEditor) (c : Int) (h : Sim s0 s ed)
    (hc : ordinary c) (hlt : u32 (s0.w - s0.r) + ed.text.length ≤ 126) :
    ∃ s1, consoleintr1 s c = some s1 ∧
      Sim s0 s1 { text := ed.text.take ed.cursor ++ c :: ed.text.drop ed.cursor,
                  cursor := ed.cursor + 1 } := by
  have htot := sim_total s0 s ed h
  obtain ⟨ht, hcur, ho, hm, hw, hr, hcom, hh, hn, hs, hre⟩ := h
  have hm0 : 0 ≤ u32 (s0.w - s0.r) := by unfold u32; omega
  obtain ⟨s1, h1, ht1, he1, hw1, hr1, ho1, hh1, hn1, hs1, hf1⟩ :=
    insert_step s ed.text c hc ht (by omega) (by omega) (by unfold INPUT_BUF; omega)
  have hpos : ed.text.length - s.o.toNat = ed.cursor := by omega
  rw [hpos] at ht1
  have hlen1 : (ed.text.take ed.cursor ++ c :: ed.text.drop ed.cursor).length
      = ed.text.length + 1 := by
    simp only [List.length_append, List.length_cons, List.length_take, List.length_drop]
    omega
  refine ⟨s1, h1, ht1, ?_, ?_, ?_, by rw [hw1, hw], by rw [hr1, hr], ?_, by rw [hh1, hh],
    by rw [hn1, hn], by rw [hs1, hs], by rw [he1]; unfold u32; omega⟩
  · simp only [hlen1]; omega
  · simp only [hlen1]; rw [ho1, ho]; push_cast; omega
  · simp only [hlen1]; push_cast; omega
  · intro j hj
    have hside : ∀ i : Nat, i ≤ ed.text.length →
        (s0.r + (j : Int)) % INPUT_BUF ≠ (s.w + (i : Int)) % INPUT_BUF := by
      intro i hi
      rw [hw]
      clear hcom ht ht1 hf1
      unfold u32 INPUT_BUF at *; omega
    rw [hf1 _ hside, hcom j hj]

theorem sim_backspace (s0 s : State) (ed : ListEditor)
    (hw0 : 0 ≤ s0.w ∧ s0.w < 4294967296) (h : Sim s0 s ed) :
    Sim s0 (backspace s)
      (if ed.cursor = 0 then ed
       else { text := ed.text.eraseIdx (ed.cursor - 1), cursor := ed.cursor - 1 }) := by
  obtain ⟨ht, hcur, ho, hm, hw, hr, hcom, hh, hn, hs, hre⟩ := h
  have hm0 : 0 ≤ u32 (s0.w - s0.r) := by unfold u32; omega
  by_cases h0 : ed.cursor = 0
  · rw [if_pos h0]
    have hnoop : backspace s = s := by
      unfold backspace
      rw [if_neg]
      intro hne; apply hne
      have := ht.1
      rw [hw] at this ⊢
      clear hcom ht
      unfold u32 at *; omega
    rw [hnoop]
    exact ⟨ht, hcur, ho, hm, hw, hr, hcom, hh, hn, hs, hre⟩
  · rw [if_neg h0]
    obtain ⟨hne, ht1, hf1⟩ :=
      backspace_step s ed.text ed.cursor ht ⟨by omega, hcur⟩ ho (by omega)
    obtain ⟨_, he1, hw1, hr1, ho1, hh1, hn1, hs1⟩ := backspace_fields s hne
    have hlen1 : (ed.text.eraseIdx (ed.cursor - 1)).length = ed.text.length - 1 := by
      rw [List.length_eraseIdx, if_pos (by omega)]
    refine ⟨ht1, ?_, ?_, ?_, by rw [hw1, hw], by rw [hr1, hr], ?_, by rw [hh1, hh],
      by rw [hn1, hn], by rw [hs1, hs], by rw [he1]; unfold u32; omega⟩
    · simp only [hlen1]; omega
    · simp only [hlen1]; rw [ho1, ho]; omega
    · simp only [hlen1]; omega
    · intro j hj
      have hside : ∀ i : Nat, i < ed.text.length →
          (s0.r + (j : Int)) % INPUT_BUF ≠ (s.w + (i : Int)) % INPUT_BUF := by
        intro i hi
        rw [hw]
        clear hcom ht ht1 hf1
        unfold u32 INPUT_BUF at *; omega
      rw [hf1 _ hside, hcom j hj]

theorem sim_left (s0 s : State) (ed : ListEditor) (h : Sim s0 s ed) :
    ∃ s1, consoleintr1 s KEY_LEFT = some s1 ∧
      Sim s0 s1 (if ed.cursor = 0 then ed else { ed with cursor := ed.cursor - 1 }) := by
  obtain ⟨ht, hcur, ho, hm, hw, hr, hcom, hh, hn, hs, hre⟩ := h
  have hm0 : 0 ≤ u32 (s0.w - s0.r) := by unfold u32; omega
  by_cases h0 : ed.cursor = 0
  · rw [if_pos h0]
    have hg : ¬ u32 s.o < u32 (s.e - s.w) := by
      rw [ht.1, ho, h0]; unfold u32; omega
    refine ⟨s, ?_, ht, hcur, ho, hm, hw, hr, hcom, hh, hn, hs, hre⟩
    simp [consoleintr1, KEY_LEFT, CTRL_P, CTRL_U, CTRL_H, DEL, KEY_UP, KEY_DOWN, C, hg]
  · rw [if_neg h0]
    obtain ⟨s1, h1, ho1, hb1, he1, hw1, hr1, hh1, hn1, hs1⟩ :=
      keyLeft_step s ⟨by omega, by rw [ht.1, ho]; omega⟩
    refine ⟨s1, h1, EditIs_congr s s1 _ ht hb1 he1 hw1, ?_, ?_, hm, by rw [hw1, hw],
      by rw [hr1, hr], ?_, by rw [hh1, hh], by rw [hn1, hn], by rw [hs1, hs], by rw [he1]; exact hre⟩
    · show ed.cursor - 1 ≤ ed.text.length
      omega
    · show s1.o = (ed.text.length : Int) - ((ed.cursor - 1 : Nat) : Int)
      rw [ho1, ho]; omega
    · intro j hj; rw [hb1]; exact hcom j hj

theorem sim_right (s0 s : State) (ed : ListEditor) (h : Sim s0 s ed) :
    ∃ s1, consoleintr1 s KEY_RIGHT = some s1 ∧
      Sim s0 s1
        (if ed.cursor = ed.text.length then ed else { ed with cursor := ed.cursor + 1 }) := by
  obtain ⟨ht, hcur, ho, hm, hw, hr, hcom, hh, hn, hs, hre⟩ := h
  by_cases h0 : ed.cursor = ed.text.length
  · rw [if_pos h0]
    have hg : ¬ s.o > 0 := by rw [ho, h0]; omega
    refine ⟨s, ?_, ht, hcur, ho, hm, hw, hr, hcom, hh, hn, hs, hre⟩
    simp [consoleintr1, KEY_RIGHT, KEY_LEFT, CTRL_P, CTRL_U, CTRL_H, DEL, KEY_UP, KEY_DOWN, C, hg]
  · rw [if_neg h0]
    have hg : s.o > 0 := by rw [ho]; omega
    refine ⟨emit { s with o := s.o - 1 } (.movecur 1), ?_, ht, ?_, ?_, hm, hw, hr, hcom,
      hh, hn, hs, hre⟩
    · simp [consoleintr1, KEY_RIGHT, KEY_LEFT, CTRL_P, CTRL_U, CTRL_H, DEL, KEY_UP, KEY_DOWN, C,
        hg]
    · show ed.cursor + 1 ≤ ed.text.length
      omega
    · show s.o - 1 = (ed.text.length : Int) - ((ed.cursor + 1 : Nat) : Int)
      rw [ho]; push_cast; omega

/-- One code of the in-line editor, processed in a state that stands for the
list editor `ed`, gives a state that stands for `ed` after the same operation,
provided the text of the list editor still fits afterwards. -/
theorem sim_step (s0 s : State) (ed : ListEditor) (c : Int)
    (hw0 : 0 ≤ s0.w ∧ s0.w < 4294967296) (h : Sim s0 s ed) (hc : editOp c)
    (hb : u32 (s0.w - s0.r) + (ed.step c).text.length ≤ 127) :
    ∃ s1, consoleintr1 s c = some s1 ∧ Sim s0 s1 (ed.step c) := by
  rcases hc with hc | hc | hc | hc | hc
  · have hstep : ed.step c
        = { text := ed.text.take ed.cursor ++ c :: ed.text.drop ed.cursor,
            cursor := ed.cursor + 1 } := by
      obtain ⟨_, _, _, _, _, _, _, h6, h7, _, _, h10, h11⟩ := hc
      unfold ListEditor.step
      rw [if_neg (by tauto), if_neg h10, if_neg h11]
    rw [hstep] at hb ⊢
    have hcur := h.2.1
    simp only [List.length_append, List.length_cons, List.length_take, List.length_drop] at hb
    exact sim_insert s0 s ed c h hc (by push_cast at hb; omega)
  · refine ⟨backspace s, consoleintr1_backspace s c (Or.inl hc), ?_⟩
    have hstep : ed.step c = if ed.cursor = 0 then ed
        else { text := ed.text.eraseIdx (ed.cursor - 1), cursor := ed.cursor - 1 } := by
      unfold ListEditor.step; rw [if_pos (Or.inl hc)]
    rw [hstep]
    exact sim_backspace s0 s ed hw0 h
  · refine ⟨backspace s, consoleintr1_backspace s c (Or.inr hc), ?_⟩
    have hstep : ed.step c = if ed.cursor = 0 then ed
        else { text := ed.text.eraseIdx (ed.cursor - 1), cursor := ed.cursor - 1 } := by
      unfold ListEditor.step; rw [if_pos (Or.inr hc)]
    rw [hstep]
    exact sim_backspace s0 s ed hw0 h
  · have hstep : ed.step c
        = if ed.cursor = 0 then ed else { ed with cursor := ed.cursor - 1 } := by
      unfold ListEditor.step
      rw [if_neg (by rw [hc]; decide), if_pos hc]
    rw [hstep, hc]
    exact sim_left s0 s ed h
  · have hstep : ed.step c
        = if ed.cursor = ed.text.length then ed else { ed with cursor := ed.cursor + 1 } := by
      unfold ListEditor.step
      rw [if_neg (by rw [hc]; decide), if_neg (by rw [hc]; decide), if_pos hc]
    rw [hstep, hc]
    exact sim_right s0 s ed h

/-- The text of the list editor grows by at most one per operation, and only
on an insertion. -/
theorem step_text_length (ed : ListEditor) (c : Int) (hcur : ed.cursor ≤ ed.text.length) :
    (ed.step c).text.length ≤ ed.text.length + 1 ∧
      ((c = CTRL_H ∨ c = DEL ∨ c = KEY_LEFT ∨ c = KEY_RIGHT) →
        (ed.step c).text.length ≤ ed.text.length) := by
  unfold ListEditor.step
  split
  · split
    · simp
    · simp only [List.length_eraseIdx]
      split <;> (constructor <;> intros <;> omega)
  · split
    · split <;> simp
    · split
      · split <;> simp
      · rename_i h1 h2 h3
        constructor
        · simp only [List.length_append, List.length_cons, List.length_take, List.length_drop]
          omega
        · intro h; exfalso; tauto

/-- If the buffer is not full after a code of the in-line editor, the text of
the list editor fits after the same operation. -/
theorem fits_of_not_full (s0 s : State) (ed : ListEditor) (c : Int) (h : Sim s0 s ed)
    (hc : editOp c)
    (hnext : ∀ s1, consoleintr1 s c = some s1 → u32 (s1.e - s1.r) < INPUT_BUF) :
    u32 (s0.w - s0.r) + (ed.step c).text.length ≤ 127 := by
  have htot := sim_total s0 s ed h
  have hm := h.2.2.2.1
  have hlen := step_text_length ed c h.2.1
  rcases hc with hc | hc | hc | hc | hc
  · by_cases hfull : u32 (s.e - s.r) = INPUT_BUF - 1
    · exfalso
      obtain ⟨s1, h1, _, he1, _, hr1, _⟩ :=
        insertChar_full s c ⟨hc.2.2.1, hc.2.2.2.2.1⟩ hfull
      have := hnext s1 (by
        rw [consoleintr1_ordinary s c hc (by rw [hfull]; decide), h1])
      rw [he1, hr1] at this
      clear h hnext
      unfold u32 INPUT_BUF at *; omega
    · have := hlen.1
      unfold INPUT_BUF at hfull; omega
  all_goals
    have hx := hlen.2 (by tauto)
    omega

/-- The run of the in-line editor over a sequence of its codes that never
fills the buffer follows the reference list editor. -/
theorem sim_run (s0 : State) (hw0 : 0 ≤ s0.w ∧ s0.w < 4294967296) (ops : List Int) :
    ∀ (s : State) (ed : ListEditor), Sim s0 s ed → (∀ c ∈ ops, editOp c) →
      neverFull s ops = true →
      ∃ s1, consoleintr s ops = some s1 ∧ Sim s0 s1 (ed.run ops) := by
  induction ops with
  | nil => intro s ed h _ _; exact ⟨s, rfl, h⟩
  | cons c cs ih =>
    intro s ed h hops hnf
    have hc : editOp c := hops c (by simp)
    simp only [neverFull, Bool.and_eq_true, decide_eq_true_eq] at hnf
    obtain ⟨s1, h1, hsim1⟩ := sim_step s0 s ed c hw0 h hc
      (fits_of_not_full s0 s ed c h hc (by
        intro s1 hs1
        have := hnf.2
        rw [hs1] at this
        exact neverFull_head s1 cs this))
    have hnf1 : neverFull s1 cs = true := by
      have := hnf.2
      rw [h1] at this
      exact this
    obtain ⟨s2, h2, hsim2⟩ := ih s1 (ed.step c) hsim1 (fun d hd => hops d (by simp [hd])) hnf1
    refine ⟨s2, ?_, hsim2⟩
    have hc0 : ¬ c < 0 := by have := editOp_nonneg c hc; omega
    simp only [consoleintr, if_neg hc0, h1, Option.some_bind, h2]

theorem sim_init (s0 : State) (hempty : s0.w = s0.e ∧ s0.o = 0)
    (hw0 : 0 ≤ s0.w ∧ s0.w < 4294967296) (hg : u32 (s0.e - s0.r) < INPUT_BUF) :
    Sim s0 s0 { text := [], cursor := 0 } := by
  obtain ⟨hwe, ho⟩ := hempty
  refine ⟨⟨by rw [hwe]; simp [u32], fun i hi => by simp at hi⟩, le_refl _, by simpa using ho,
    ?_, rfl, rfl, fun _ _ => rfl, rfl, rfl, rfl, by rw [← hwe]; exact hw0⟩
  rw [← hwe] at hg
  unfold INPUT_BUF at hg
  simp only [List.length_nil, Nat.cast_zero, add_zero]
  omega

/-- C16. The in-place editor refines a list editor: from an empty edit region
(`w = e`, `o = 0`), for every sequence of ordinary characters, backspaces,
cursor-left and cursor-right codes during which the buffer never becomes full
(`e − r < 128` at every state of the run, so no commit occurs), all the codes
are accepted, the cells of `[w, e)` read modulo 128 are the text of the
reference list editor run over the same sequence, the insertion point
`(e − w) − o` is its cursor, and `r`, `w` and the committed region are as at
the start. -/
theorem C16_editor_refines_list_editor (s0 : State) (ops : List Int)
    (hempty : s0.w = s0.e ∧ s0.o = 0) (hw0 : 0 ≤ s0.w ∧ s0.w < 4294967296)
    (hops : ∀ c ∈ ops, editOp c) (hnf : neverFull s0 ops = true) :
    ∃ s1, consoleintr s0 ops = some s1 ∧
      editRegion s1 = (ListEditor.run { text := [], cursor := 0 } ops).text ∧
      u32 (s1.e - s1.w) - s1.o = (ListEditor.run { text := [], cursor := 0 } ops).cursor ∧
      s1.r = s0.r ∧ s1.w = s0.w ∧ committed s1 = committed s0 := by
  have hsim0 := sim_init s0 hempty hw0 (neverFull_head s0 ops hnf)
  obtain ⟨s1, h1, hsim⟩ := sim_run s0 hw0 ops s0 _ hsim0 hops hnf
  obtain ⟨ht, hcur, ho, hm, hw, hr, hcom, _⟩ := hsim
  refine ⟨s1, h1, editRegion_of_EditIs s1 _ ht, by rw [ht.1, ho]; omega, hr, hw, ?_⟩
  unfold committed
  rw [hw, hr]
  apply region_congr
  intro j hj
  exact hcom j (by omega)

theorem C16_editor_refines_list_editor_witness :
    ∃ s1, consoleintr init [97, 98, 99, KEY_LEFT, KEY_LEFT, 88, CTRL_H, KEY_RIGHT, DEL] = some s1 ∧
      editRegion s1 = (ListEditor.run { text := [], cursor := 0 }
        [97, 98, 99, KEY_LEFT, KEY_LEFT, 88, CTRL_H, KEY_RIGHT, DEL]).text ∧
      u32 (s1.e - s1.w) - s1.o = (ListEditor.run { text := [], cursor := 0 }
        [97, 98, 99, KEY_LEFT, KEY_LEFT, 88, CTRL_H, KEY_RIGHT, DEL]).cursor ∧
      s1.r = init.r ∧ s1.w = init.w ∧ committed s1 = committed init :=
  C16_editor_refines_list_editor init _ ⟨rfl, rfl⟩ (by decide) (by decide) (by decide)

theorem upd2_same (a : Int → Int → Int) (k i v : Int) : upd2 a k i v k i = v := by
  simp [upd2]

theorem upd2_other (a : Int → Int → Int) (k i v k2 j : Int) (h : ¬ (k2 = k ∧ j = i)) :
    upd2 a k i v k2 j = a k2 j := by
  simp only [upd2, if_neg h]

theorem copyLoop_spec (k : Int) (v : Int → Int) (h0 : Int → Int → Int) (n : Nat) (k2 j : Int) :
    forUpTo n (fun i h => upd2 h k i (v i)) h0 k2 j
      = if k2 = k ∧ 0 ≤ j ∧ j < n then v j else h0 k2 j := by
  induction n with
  | zero =>
    simp only [forUpTo]
    rw [if_neg]; push_cast; omega
  | succ m ih =>
    simp only [forUpTo]
    by_cases hj : k2 = k ∧ j = (m : Int)
    · obtain ⟨h1, h2⟩ := hj
      subst h1; subst h2
      rw [upd2_same, if_pos ⟨rfl, by omega, by push_cast; omega⟩]
    · rw [upd2_other _ _ _ _ _ _ hj, ih]
      by_cases hc : k2 = k ∧ 0 ≤ j ∧ j < (m : Int)
      · rw [if_pos hc, if_pos ⟨hc.1, hc.2.1, by push_cast; omega⟩]
      · rw [if_neg hc, if_neg]
        intro h
        apply hc
        refine ⟨h.1, h.2.1, ?_⟩
        have := h.2.2
        push_cast at this
        have hne : j ≠ (m : Int) := fun e => hj ⟨h.1, e⟩
        omega

/-- The history push stores the edit region in slot `next`, NUL-terminated,
and leaves the other slots alone. -/
theorem pushCopy_spec (s : State) (t : List Int) (ht : EditIs s t) (hlen : t.length ≤ 127) :
    SlotHolds (pushCopy s) s.next t ∧ ∀ k j, k ≠ s.next → pushCopy s k j = s.hist k j := by
  obtain ⟨hL, hcells⟩ := ht
  have hn : (u32 (s.e + INPUT_BUF - s.w) % INPUT_BUF).toNat = t.length := by
    unfold u32 INPUT_BUF at *; omega
  unfold pushCopy
  simp only [hn]
  refine ⟨⟨?_, upd2_same _ _ _ _⟩, ?_⟩
  · intro j hj
    rw [upd2_other _ _ _ _ _ _ (by omega), copyLoop_spec,
      if_pos ⟨rfl, by omega, by omega⟩, cell_eq]
    exact hcells j hj
  · intro k j hk
    rw [upd2_other _ _ _ _ _ _ (by tauto), copyLoop_spec, if_neg (by tauto)]

/-- The splice loop on a slot that holds `rest` from index `i` on: the
characters are written at `e, e+1, ...` (modulo 128) and `e` advances by
`|rest|`; nothing checks the room left in the buffer. -/
theorem spliceLoop_spec (rest : List Int) : ∀ (fuel : Nat) (i : Int) (s : State),
    (∀ j : Nat, j < rest.length → rest[j]? = some (s.hist s.selected (i + (j : Int)))) →
    s.hist s.selected (i + (rest.length : Int)) = 0 →
    (∀ x ∈ rest, x ≠ 0) → rest.length < fuel → rest.length ≤ 127 →
    ∃ s1, spliceLoop fuel i s = some s1 ∧ u32 (s1.e - s.e) = (rest.length : Int) ∧
      (∀ j : Nat, j < rest.length → rest[j]? = some (s1.buf ((s.e + (j : Int)) % INPUT_BUF))) ∧
      (∀ x, (∀ j : Nat, j < rest.length → x ≠ (s.e + (j : Int)) % INPUT_BUF) →
        s1.buf x = s.buf x) ∧
      s1.w = s.w ∧ s1.r = s.r ∧ s1.o = s.o ∧ s1.hist = s.hist ∧ s1.next = s.next ∧
      s1.selected = s.selected ∧
      ((0 ≤ s.e ∧ s.e < 4294967296) → (0 ≤ s1.e ∧ s1.e < 4294967296)) := by
  induction rest with
  | nil =>
    intro fuel i s _ h0 _ hf _
    obtain ⟨f, rfl⟩ : ∃ f, fuel = f + 1 := ⟨fuel - 1, by simp at hf; omega⟩
    simp only [List.length_nil, Nat.cast_zero, add_zero] at h0
    refine ⟨s, ?_, by simp [u32], fun j hj => by simp at hj, fun _ _ => rfl, rfl, rfl, rfl,
      rfl, rfl, rfl, fun h => h⟩
    rw [spliceLoop, if_neg (by rw [h0]; simp)]
  | cons x xs ih =>
    intro fuel i s hcells h0 hnz hf hlen
    simp only [List.length_cons] at hf hlen h0
    obtain ⟨f, rfl⟩ : ∃ f, fuel = f + 1 := ⟨fuel - 1, by omega⟩
    have hx : s.hist s.selected i = x := by
      have := hcells 0 (by simp)
      simpa using this.symm
    have hx0 : x ≠ 0 := hnz x (by simp)
    rw [spliceLoop, if_pos (by rw [hx]; exact hx0), hx]
    obtain ⟨s1, h1, he1, hc1, hf1, hw1, hr1, ho1, hh1, hn1, hs1, hre1⟩ :=
      ih f (i + 1)
        (emit { s with buf := upd s.buf (u32 s.e % INPUT_BUF) x, e := u32 (s.e + 1) }
          (.consputc (charToInt x)))
        (by
          intro j hj
          have := hcells (j + 1) (by simp; omega)
          simp only [List.getElem?_cons_succ] at this
          rw [this]
          simp only [emit]
          congr 2; push_cast; ring)
        (by
          simp only [emit]
          rw [← h0]; congr 1; push_cast; ring)
        (fun y hy => hnz y (by simp [hy])) (by omega) (by omega)
    simp only [emit] at he1 hc1 hf1 hw1 hr1 ho1 hh1 hn1 hs1 hre1
    refine ⟨s1, h1, ?_, ?_, ?_, hw1, hr1, ho1, hh1, hn1, hs1, ?_⟩
    · simp only [List.length_cons]; push_cast; unfold u32 at *; omega
    · intro j hj
      simp only [List.length_cons] at hj
      cases j with
      | zero =>
        have hne : ∀ j : Nat, j < xs.length →
            (s.e + ((0 : Nat) : Int)) % INPUT_BUF ≠ (u32 (s.e + 1) + (j : Int)) % INPUT_BUF := by
          intro j hj; unfold u32 INPUT_BUF; omega
        rw [hf1 _ hne]
        simp [u32_mod_buf, upd_same]
      | succ j =>
        have := hc1 j (by omega)
        simp only [List.getElem?_cons_succ]
        rw [this]
        congr 2
        unfold u32 INPUT_BUF; push_cast; omega
    · intro y hy
      have hne : ∀ j : Nat, j < xs.length → y ≠ (u32 (s.e + 1) + (j : Int)) % INPUT_BUF := by
        intro j hj
        have := hy (j + 1) (by simp; omega)
        intro heq; apply this; rw [heq]
        unfold u32 INPUT_BUF; push_cast; omega
      rw [hf1 y hne, upd_other]
      have := hy 0 (by simp)
      rw [u32_mod_buf]
      simpa using this
    · intro _
      exact hre1 (by unfold u32; omega)

/-- Recall-previous in a state whose edit region holds no newline and whose
previous history slot holds the line `l`: the edit region is erased and
replaced by `l`, whatever room the buffer has left. -/
theorem recallPrev_step (s : State) (l : List Int)
    (he : 0 ≤ s.e ∧ s.e < 4294967296) (hw : 0 ≤ s.w ∧ s.w < 4294967296)
    (hnl : ∀ j : Nat, j < (u32 (s.e - s.w)).toNat → s.buf ((s.w + (j : Int)) % INPUT_BUF) ≠ NL)
    (hsel : 0 ≤ selectPrev s.selected ∧ selectPrev s.selected < MAX_HISTORY_LENGTH)
    (hslot : SlotHolds s.hist (selectPrev s.selected) l)
    (hnz : ∀ x ∈ l, x ≠ 0) (hlen : l.length ≤ 127) :
    ∃ s1, consoleintr1 s KEY_UP = some s1 ∧ EditIs s1 l ∧ s1.o = 0 ∧ s1.w = s.w ∧
      s1.r = s.r ∧ s1.hist = s.hist ∧ s1.next = s.next ∧
      s1.selected = selectPrev s.selected ∧
      (∀ x, (∀ j : Nat, j < l.length → x ≠ (s.w + (j : Int)) % INPUT_BUF) →
        s1.buf x = s.buf x) ∧
      (0 ≤ s1.e ∧ s1.e < 4294967296) := by
  have hk := killLine_spec s he hw hnl
  have hstep : consoleintr1 s KEY_UP
      = splice { killLine s with selected := selectPrev (killLine s).selected } := by
    simp [consoleintr1, KEY_UP, CTRL_P, CTRL_U, CTRL_H, DEL, C]
  have hsk : ({ killLine s with selected := selectPrev (killLine s).selected } : State)
      = { s with
          e := s.w, o := 0, selected := selectPrev s.selected,
          out := s.out ++ (Out.movecur s.o ::
            List.replicate (u32 (s.e - s.w)).toNat (Out.consputc BACKSPACE)) } := by
    rw [hk]
  rw [hstep, hsk]
  obtain ⟨s1, h1, he1, hc1, hf1, hw1, hr1, ho1, hh1, hn1, hs1, hre1⟩ :=
    spliceLoop_spec l INPUT_BUF.toNat 0
      { s with
        e := s.w, o := 0, selected := selectPrev s.selected,
        out := s.out ++ (Out.movecur s.o ::
          List.replicate (u32 (s.e - s.w)).toNat (Out.consputc BACKSPACE)) }
      (by intro j hj; simp only [zero_add]; exact hslot.1 j hj)
      (by simp only [zero_add]; exact hslot.2) hnz
      (by have : INPUT_BUF.toNat = 128 := by decide
          omega) hlen
  simp only at he1 hc1 hf1 hw1 hr1 ho1 hh1 hn1 hs1 hre1
  refine ⟨s1, ?_, ⟨by rw [hw1]; exact he1, fun j hj => by rw [hw1]; exact hc1 j hj⟩, ho1,
    hw1, hr1, hh1, hn1, hs1, hf1, hre1 hw⟩
  unfold splice
  rw [if_pos hsel]
  exact h1

theorem selectPrev_succ (k : Int) (hk : 0 ≤ k ∧ k < MAX_HISTORY_LENGTH) :
    selectPrev (k + 1) = k := by
  unfold selectPrev
  simp only [add_sub_cancel_right]
  rw [if_neg (by omega)]
  exact Int.tmod_eq_of_lt hk.1 hk.2

/-- A line typed into an empty line buffer and ended by newline: the line is
committed with its newline and pushed, without it, into slot `next`. -/
theorem line_commit (s0 : State) (str : List Int)
    (hempty : s0.r = s0.w ∧ s0.w = s0.e ∧ s0.o = 0)
    (hnext : 0 ≤ s0.next ∧ s0.next < MAX_HISTORY_LENGTH)
    (hstr : str ≠ [] ∧ str.length ≤ 127 ∧ ∀ c ∈ str, ordinary c) :
    ∃ s1, consoleintr s0 (str ++ [NL]) = some s1 ∧ committed s1 = str ++ [NL] ∧
      s1.w = s1.e ∧ s1.o = 0 ∧ s1.r = s0.r ∧ s1.w = u32 (s0.r + str.length + 1) ∧
      SlotHolds s1.hist s0.next str ∧ s1.next = s0.next + 1 ∧ s1.selected = s0.next + 1 := by
  obtain ⟨hrw, hwe, ho⟩ := hempty
  obtain ⟨hne, hlen, hord⟩ := hstr
  have hE0 : EditIs s0 [] := ⟨by rw [hwe]; simp [u32], fun i hi => by simp at hi⟩
  obtain ⟨sa, ha, hta, hea, hwa, hra, hoa, hha, hna, hsa, _⟩ :=
    type_run str s0 [] hord hE0 ho (by simp; omega)
      (by have h1 := guard_of_edit s0 [] hE0 hrw.symm 1 (by simp); omega)
  simp only [List.nil_append] at hta
  have hrwa : sa.w = sa.r := by rw [hwa, hra, hrw]
  have hpos : 1 ≤ str.length := by
    cases str with
    | nil => exact absurd rfl hne
    | cons x xs => simp
  have hnew : sa.e ≠ sa.w := by
    intro h
    have := hta.1
    rw [h] at this
    simp [u32] at this
    omega
  obtain ⟨sd, hd, hbd, hed, hwd, hrd, hod, hsd, _, hB⟩ :=
    lineEnd_step sa NL (Or.inl rfl) (fun _ => by rw [hna]; exact hnext)
  obtain ⟨hhd, hnd⟩ := hB hnew
  have hpush := pushCopy_spec sa str hta hlen
  refine ⟨sd, ?_, ?_, by rw [hwd, hed], hod, by rw [hrd, hra], ?_, ?_, by rw [hnd, hna],
    by rw [hsd, hnd, hna]⟩
  · have hpos1 : ∀ c ∈ str, 0 ≤ c := fun c hc => ordinary_nonneg c (hord c hc)
    have hN0 : ¬ NL < 0 := by decide
    rw [consoleintr_append _ _ _ hpos1, ha]
    simp only [Option.some_bind, consoleintr, if_neg hN0,
      consoleintr1_lineEnd sa NL (Or.inl rfl)
        (guard_of_edit sa str hta hrwa _ (by unfold INPUT_BUF; omega)), hd]
  · exact commit_region sa sd str NL hta hlen hrwa hbd hwd hrd
  · rw [hwd]
    have := hta.1
    rw [hwa, ← hrw] at this
    unfold u32 at *; omega
  · rw [hhd, ← hna]; exact hpush.1

/-- A read of a whole committed line: the line and its newline are delivered
and `r` catches up with `w`. -/
theorem read_line (s : State) (killed : Bool) (n : Int) (p : List Int)
    (hc : committed s = p ++ [NL]) (hp : ∀ x ∈ p, x ≠ NL ∧ x ≠ CTRL_D)
    (hn : (p.length : Int) < n ∧ n ≤ 2147483647) :
    consoleread killed n s
      = .ret (p.length + 1) (p ++ [NL]) { s with r := u32 (s.r + p.length + 1) } := by
  obtain ⟨f, hf⟩ : ∃ f : Nat, n.toNat = f + 1 := ⟨n.toNat - 1, by omega⟩
  unfold consoleread
  rw [if_pos (by omega), hf, read_loop_newline killed (u32 n) f s [] p [] hc hp]
  have hmin : min (f + 1) (p.length + 1) = p.length + 1 := by omega
  rw [hmin, List.nil_append, List.take_of_length_le (by simp; omega)]
  congr 1
  · unfold toInt32 u32; omega
  · simp only [State.mk.injEq, true_and, and_true]
    congr 1; push_cast; ring

theorem step_text_ordinary (ed : ListEditor) (c : Int) (hc : editOp c)
    (h : ∀ x ∈ ed.text, ordinary x) : ∀ x ∈ (ed.step c).text, ordinary x := by
  unfold ListEditor.step
  split
  · split
    · exact h
    · intro x hx; exact h x (List.mem_of_mem_eraseIdx hx)
  · split
    · split <;> exact h
    · split
      · split <;> exact h
      · rename_i h1 h2 h3
        have hord : ordinary c := by
          rcases hc with hc | hc | hc | hc | hc
          · exact hc
          all_goals (exfalso; tauto)
        intro x hx
        simp only [List.mem_append, List.mem_cons] at hx
        rcases hx with hx | hx | hx
        · exact h x (List.mem_of_mem_take hx)
        · rw [hx]; exact hord
        · exact h x (List.mem_of_mem_drop hx)

theorem run_text_ordinary (ops : List Int) : ∀ (ed : ListEditor),
    (∀ c ∈ ops, editOp c) → (∀ x ∈ ed.text, ordinary x) →
    ∀ x ∈ (ed.run ops).text, ordinary x := by
  induction ops with
  | nil => intro ed _ h; exact h
  | cons c cs ih =>
    intro ed hops h
    exact ih (ed.step c) (fun d hd => hops d (by simp [hd]))
      (step_text_ordinary ed c (hops c (by simp)) h)

/-- The run of the in-line editor over a sequence of its codes with at most
as many ordinary characters as there is room left follows the list editor. -/
theorem sim_run_room (s0 : State) (hw0 : 0 ≤ s0.w ∧ s0.w < 4294967296) (ops : List Int) :
    ∀ (s : State) (ed : ListEditor), Sim s0 s ed → (∀ c ∈ ops, editOp c) →
      u32 (s0.w - s0.r) + ed.text.length + ops.countP (fun c => decide (ordinary c)) ≤ 127 →
      ∃ s1, consoleintr s ops = some s1 ∧ Sim s0 s1 (ed.run ops) := by
  induction ops with
  | nil => intro s ed h _ _; exact ⟨s, rfl, h⟩
  | cons c cs ih =>
    intro s ed h hops hroom
    have hc : editOp c := hops c (by simp)
    have hlen := step_text_length ed c h.2.1
    have hb : u32 (s0.w - s0.r) + (ed.step c).text.length
        + cs.countP (fun c => decide (ordinary c)) ≤ 127 := by
      by_cases ho : ordinary c
      · rw [List.countP_cons_of_pos _ _ (by simpa using ho)] at hroom
        have := hlen.1
        push_cast at hroom; omega
      · rw [List.countP_cons_of_neg _ _ (by simpa using ho)] at hroom
        have := hlen.2 (by rcases hc with h | h | h | h | h <;> tauto)
        omega
    obtain ⟨s1, h1, hsim1⟩ := sim_step s0 s ed c hw0 h hc (by omega)
    obtain ⟨s2, h2, hsim2⟩ := ih s1 (ed.step c) hsim1 (fun d hd => hops d (by simp [hd])) hb
    refine ⟨s2, ?_, hsim2⟩
    have hc0 : ¬ c < 0 := by have := editOp_nonneg c hc; omega
    simp only [consoleintr, if_neg hc0, h1, Option.some_bind, h2]

/-- C11. History recall round trip: a non-empty line `str` of at most 127
ordinary characters is typed into an empty line buffer (`r = w = e`, `o = 0`)
with a valid history write index and committed with newline; the reader
consumes it; any in-progress editing follows (ordinary characters, backspaces,
cursor moves) that does not fill the buffer.  All of this is accepted, and a
recall-previous code then leaves the edit region `[w, e)` equal to `str`
without the newline, with `o = 0`, `w` unmoved and nothing committed. -/
theorem C11_history_recall_roundtrip (s0 : State) (str ops : List Int) (killed : Bool)
    (n : Int)
    (hempty : s0.r = s0.w ∧ s0.w = s0.e ∧ s0.o = 0)
    (hnext : 0 ≤ s0.next ∧ s0.next < MAX_HISTORY_LENGTH)
    (hstr : str ≠ [] ∧ str.length ≤ 127 ∧ ∀ c ∈ str, ordinary c)
    (hn : (str.length : Int) < n ∧ n ≤ 2147483647)
    (hops : ∀ c ∈ ops, editOp c)
    (hroom : ops.countP (fun c => decide (ordinary c)) ≤ 127) :
    ∃ s1 s2 s3 s4, consoleintr s0 (str ++ [NL]) = some s1 ∧
      consoleread killed n s1 = .ret (str.length + 1) (str ++ [NL]) s2 ∧
      consoleintr s2 ops = some s3 ∧ consoleintr1 s3 KEY_UP = some s4 ∧
      editRegion s4 = str ∧ s4.o = 0 ∧ s4.w = s3.w ∧ s4.w = s1.w ∧ s4.r = s4.w ∧
      committed s4 = [] := by
  obtain ⟨s1, h1, hc1, hwe1, ho1, hr1, hw1, hslot1, hn1, hs1⟩ :=
    line_commit s0 str hempty hnext hstr
  have hread := read_line s1 killed n str hc1
    (fun x hx => ⟨(hstr.2.2 x hx).2.2.1, (hstr.2.2 x hx).2.2.2.2.1⟩) hn
  have hw1r : 0 ≤ s1.w ∧ s1.w < 4294967296 := by rw [hw1]; unfold u32; omega
  have hr2 : u32 (s1.r + str.length + 1) = s1.w := by rw [hw1, hr1]
  rw [hr2] at hread
  have hsim0 : Sim { s1 with r := s1.w } { s1 with r := s1.w } { text := [], cursor := 0 } :=
    sim_init _ ⟨hwe1, ho1⟩ hw1r (by simp only; rw [← hwe1]; simp [u32, INPUT_BUF])
  obtain ⟨s3, h3, hsim3⟩ := sim_run_room { s1 with r := s1.w } hw1r ops _ _ hsim0 hops
    (by simp only [List.length_nil]; simp [u32]; omega)
  obtain ⟨ht3, _, _, _, hw3, hr3, _, hh3, hn3, hs3, hre3⟩ := hsim3
  simp only at hw3 hr3 hh3 hn3 hs3
  have hord3 := run_text_ordinary ops { text := [], cursor := 0 } hops (by simp)
  have hsel : selectPrev s3.selected = s0.next := by
    rw [hs3, hs1]; exact selectPrev_succ _ hnext
  obtain ⟨s4, h4, ht4, ho4, hw4, hr4, _⟩ :=
    recallPrev_step s3 str hre3 (by rw [hw3]; exact hw1r)
      (by
        intro j hj
        have hj2 : j < (ListEditor.run { text := [], cursor := 0 } ops).text.length := by
          have := ht3.1; omega
        have hcell := ht3.2 j hj2
        intro heq
        rw [heq] at hcell
        obtain ⟨hlt, hx⟩ := List.getElem?_eq_some.1 hcell
        have hmem : NL ∈ (ListEditor.run { text := [], cursor := 0 } ops).text := by
          rw [← hx]; exact List.getElem_mem _
        exact (hord3 NL hmem).2.2.1 rfl)
      (by rw [hsel]; exact hnext)
      (by rw [hsel, hh3]; exact hslot1)
      (fun x hx => by have := (hstr.2.2 x hx).1; omega) hstr.2.1
  refine ⟨s1, _, s3, s4, h1, hread, h3, h4, editRegion_of_EditIs s4 str ht4, ho4, hw4,
    by rw [hw4, hw3], by rw [hr4, hr3, hw4, hw3], ?_⟩
  unfold committed
  rw [hr4, hr3, hw4, hw3]
  simp [u32, region]

theorem C11_history_recall_roundtrip_witness :
    ∃ s1 s2 s3 s4, consoleintr init ([104, 105] ++ [NL]) = some s1 ∧
      consoleread false 10 s1 = .ret (([104, 105] : List Int).length + 1) ([104, 105] ++ [NL]) s2 ∧
      consoleintr s2 [120, 121, KEY_LEFT] = some s3 ∧ consoleintr1 s3 KEY_UP = some s4 ∧
      editRegion s4 = [104, 105] ∧ s4.o = 0 ∧ s4.w = s3.w ∧ s4.w = s1.w ∧ s4.r = s4.w ∧
      committed s4 = [] :=
  C11_history_recall_roundtrip init [104, 105] [120, 121, KEY_LEFT] false 10 ⟨rfl, rfl, rfl⟩
    (by decide) (by decide) (by decide) (by decide) (by decide)

theorem longLine_ordinary : ∀ c ∈ longLine, ordinary c := by
  intro c hc
  simp only [longLine, List.mem_cons] at hc
  rcases hc with h | h
  · rw [h]; decide
  · exact replicate_ordinary 99 c h

/-- C19 (failing input). From the boot state the line `b` followed by 99 `a`
is typed and ended by newline; the resulting state satisfies the Line Buffer
invariant and its committed region `[0, 101)` starts with `b`.  A
recall-previous code is then accepted: it splices the 100 characters of the
history slot at `e = 101` without any test of the room left, the edit index
runs to `201 > r + 128`, `r` is unmoved, and the cell of the first committed
character now holds `a`: the committed region has changed. -/
theorem C19_recall_overwrites_committed :
    ∃ s3 s4, consoleintr init (longLine ++ [NL]) = some s3 ∧ BufInv s3 ∧
      consoleintr1 s3 KEY_UP = some s4 ∧ s4.r = s3.r ∧ s4.e = 201 ∧
      (committed s3)[0]? = some 98 ∧
      (region s4.buf s3.r (u32 (s3.w - s3.r)).toNat)[0]? = some 97 ∧
      region s4.buf s3.r (u32 (s3.w - s3.r)).toNat ≠ committed s3 := by
  have hlen : longLine.length = 100 := by simp [longLine]
  obtain ⟨s1, h1, hc1, hwe1, ho1, hr1, hw1, hslot1, hn1, hs1⟩ :=
    line_commit init longLine ⟨rfl, rfl, rfl⟩ (by decide)
      ⟨by simp [longLine], by rw [hlen]; omega, longLine_ordinary⟩
  have hr0 : s1.r = 0 := hr1
  have hw101 : s1.w = 101 := by rw [hw1, hlen]; decide
  have he101 : s1.e = 101 := by rw [← hwe1, hw101]
  have hsel : selectPrev s1.selected = 0 := by
    rw [hs1]; exact selectPrev_succ 0 (by decide)
  obtain ⟨s4, h4, ht4, ho4, hw4, hr4, _, _, _, _, hre4⟩ :=
    recallPrev_step s1 longLine (by rw [he101]; decide) (by rw [hw101]; decide)
      (by intro j hj; rw [he101, hw101] at hj; simp [u32] at hj)
      (by rw [hsel]; decide) (by rw [hsel]; exact hslot1)
      (fun x hx => by have := (longLine_ordinary x hx).1; omega) (by rw [hlen]; omega)
  have he4 : s4.e = 201 := by
    have := ht4.1
    rw [hw4, hw101, hlen] at this
    unfold u32 at this; omega
  have hcnt : (u32 (s1.w - s1.r)).toNat = 101 := by rw [hw101, hr0]; decide
  have hold : (committed s1)[0]? = some 98 := by rw [hc1]; rfl
  have hnew : (region s4.buf s1.r (u32 (s1.w - s1.r)).toNat)[0]? = some 97 := by
    rw [hcnt, region_getElem, if_pos (by omega), hr0]
    have h27 := ht4.2 27 (by rw [hlen]; omega)
    rw [hw4, hw101] at h27
    have e1 : ((101 : Int) + ((27 : Nat) : Int)) % INPUT_BUF
        = ((0 : Int) + ((0 : Nat) : Int)) % INPUT_BUF := by decide
    rw [e1] at h27
    rw [← h27]
    rfl
  refine ⟨s1, s4, h1, ?_, h4, hr4, he4, hold, hnew, ?_⟩
  · unfold BufInv INPUT_BUF
    rw [hr0, hw101, he101, ho1]
    omega
  · intro heq
    rw [heq, hold] at hnew
    exact absurd hnew (by decide)

/-- C18. Output sink scroll-up: for every grid and every cursor position in
`[0, 1920)` held by the two cursor registers, `cgaputc(c)` leaves the cursor in
`[0, 1920)`; and when the write moves the cursor past the last row (a code
other than newline and `BACKSPACE` at position 1919, or a newline in the last
row), rows 0..22 of the result are rows 1..23 as they were after the write,
the cursor ends at 1840, and the last row is cleared: its cells are 0 except
the cell under the cursor, which holds the blank `cgaputc` always writes there. -/
theorem C18_cgaputc_scroll (g : Cga) (c : Int)
    (hregs : 0 ≤ g.reg14 ∧ 0 ≤ g.reg15 ∧ g.reg15 < 256) (hpos : g.pos < 1920) :
    (0 ≤ (cgaputc g c).pos ∧ (cgaputc g c).pos < 1920) ∧
    (((c ≠ NL ∧ c ≠ BACKSPACE ∧ g.pos = 1919) ∨ (c = NL ∧ 1840 ≤ g.pos)) →
      (∀ i : Int, 0 ≤ i → i < 1840 → (cgaputc g c).crt i = cgaWrite g c (i + 80)) ∧
      (∀ i : Int, 1840 < i → i < 1920 → (cgaputc g c).crt i = 0) ∧
      (cgaputc g c).crt 1840 = 32 + 1792 ∧
      (cgaputc g c).pos = 1840) := by
  obtain ⟨h14, h15, h15b⟩ := hregs
  have hp0 : 0 ≤ g.pos := by unfold Cga.pos; omega
  have hadv : 0 ≤ cgaAdvance g c ∧ cgaAdvance g c ≤ 1920 := by
    unfold cgaAdvance
    rw [Int.tmod_eq_emod hp0 (by decide)]
    split
    · omega
    · split
      · split <;> omega
      · omega
  have hdiv : Int.tdiv (cgaAdvance g c) 80 = cgaAdvance g c / 80 :=
    Int.tdiv_eq_ediv hadv.1 (by decide)
  have hposeq : ∀ p : Int, 0 ≤ p → p < 1920 → (p / 256) % 256 * 256 + p % 256 = p := by
    intro p h1 h2; omega
  by_cases hs : Int.tdiv (cgaAdvance g c) 80 ≥ 24
  · have h1920 : cgaAdvance g c = 1920 := by rw [hdiv] at hs; omega
    have hcp : (cgaputc g c).pos = 1840 := by
      simp only [cgaputc, Cga.pos, if_pos hs]
      rw [h1920]
      decide
    refine ⟨by rw [hcp]; decide, fun _ => ⟨?_, ?_, ?_, hcp⟩⟩
    · intro i hi0 hi
      simp only [cgaputc, if_pos hs]
      rw [h1920]
      rw [upd_other _ _ _ _ (by omega)]
      simp only [clearFrom, scrollUp]
      rw [if_neg (by omega), if_pos (by omega)]
    · intro i hi0 hi
      simp only [cgaputc, if_pos hs]
      rw [h1920]
      rw [upd_other _ _ _ _ (by omega)]
      simp only [clearFrom]
      rw [if_pos (by omega)]
    · simp only [cgaputc, if_pos hs]
      rw [h1920]
      exact upd_same _ _ _
  · have hlt : cgaAdvance g c < 1920 := by rw [hdiv] at hs; omega
    have hcp : (cgaputc g c).pos = cgaAdvance g c := by
      simp only [cgaputc, Cga.pos, if_neg hs]
      exact hposeq _ hadv.1 hlt
    refine ⟨by rw [hcp]; exact ⟨hadv.1, hlt⟩, fun hcase => ?_⟩
    exfalso
    apply hs
    rw [hdiv]
    unfold cgaAdvance
    rw [Int.tmod_eq_emod hp0 (by decide)]
    rcases hcase with ⟨h1, h2, h3⟩ | ⟨h1, h2⟩
    · rw [if_neg h1, if_neg h2, h3]; decide
    · rw [if_pos h1]; omega

theorem C18_cgaputc_scroll_witness :
    (0 ≤ (cgaputc lastCell 97).pos ∧ (cgaputc lastCell 97).pos < 1920) ∧
      (cgaputc lastCell 97).crt 1839 = 97 + 1792 ∧ (cgaputc lastCell 97).pos = 1840 :=
  have h := C18_cgaputc_scroll lastCell 97 (by decide) (by decide)
  ⟨h.1, (h.2 (Or.inl (by decide))).1 1839 (by decide) (by decide), (h.2 (Or.inl (by decide))).2.2.2⟩

theorem strAt_eq (p : List Int) (j : Nat) (hj : j < p.length) :
    p[j]? = some (strAt p (j : Int)) := by
  unfold strAt
  rw [if_pos ⟨by omega, by omega⟩]
  simp [List.getD_eq_getElem?_getD, List.getElem?_eq_getElem hj]

theorem strAt_last (p : List Int) (hne : p ≠ []) :
    p.getLast? = some (strAt p ((p.length : Int) - 1)) := by
  have hpos : 0 < p.length := List.length_pos.2 hne
  rw [List.getLast?_eq_getElem?]
  have := strAt_eq p (p.length - 1) (by omega)
  rw [this]
  congr 2
  omega

theorem safestrcpy_spec (s : Int → Int) (t : List Int) :
    (∀ j : Nat, j < min t.length 127 → safestrcpy s t INPUT_BUF (j : Int) = strAt t (j : Int)) ∧
      safestrcpy s t INPUT_BUF ((min t.length 127 : Nat) : Int) = 0 := by
  unfold safestrcpy INPUT_BUF
  rw [if_neg (by decide)]
  constructor
  · intro j hj
    rw [if_pos (by omega)]
  · rw [if_neg (by omega), if_pos (by omega)]

/-- The successful path of `sys_add_path`: with room in the table and a
non-empty string, the call returns 0, the new entry holds `storedPath path`
and the other entries are left alone. -/
theorem sys_add_path_ok (kp : PathTable) (path : List Int)
    (hsize : 0 ≤ kp.size ∧ kp.size < MAX_PATH_ENTRIES) (hne : path ≠ [])
    (hnz : ∀ c ∈ path, c ≠ 0) :
    ∃ kp1, sys_add_path (some path) kp = some (0, kp1) ∧ kp1.size = kp.size + 1 ∧
      (∀ k, k ≠ kp.size → kp1.entries k = kp.entries k) ∧
      HoldsStr (kp1.entries kp.size) (storedPath path) ∧ (storedPath path).length ≤ 127 := by
  have hpos : 0 < path.length := List.length_pos.2 hne
  have hlast := strAt_last path hne
  obtain ⟨hcopy, hterm⟩ := safestrcpy_spec (kp.entries kp.size) path
  have hchar : ∀ j : Nat, j < path.length → strAt path (j : Int) ≠ 0 := by
    intro j hj h0
    have := strAt_eq path j hj
    rw [h0] at this
    obtain ⟨hlt, hx⟩ := List.getElem?_eq_some.1 this
    exact hnz 0 (by rw [← hx]; exact List.getElem_mem _) rfl
  unfold sys_add_path
  simp only [strlen]
  rw [if_neg (by unfold MAX_PATH_ENTRIES at *; omega), if_neg (by tauto), if_neg (by omega)]
  refine ⟨_, rfl, by unfold u32 MAX_PATH_ENTRIES at *; simp only; omega,
    fun k hk => by simp only [if_neg hk], ?_, ?_⟩
  · simp only [if_true]
    unfold storedPath
    by_cases hc : path.getLast? ≠ some SLASH ∧ path.length < 127
    · have hc2 : strAt path ((path.length : Int) - 1) ≠ SLASH ∧
          (path.length : Int) < INPUT_BUF - 1 := by
        refine ⟨fun h => hc.1 (by rw [hlast, h]), by unfold INPUT_BUF; omega⟩
      rw [if_pos hc, if_pos hc2]
      refine ⟨fun j hj => ?_, ?_⟩
      · simp only [List.length_append, List.length_cons, List.length_nil] at hj
        by_cases hjl : j < path.length
        · rw [upd_other _ _ _ _ (by omega), upd_other _ _ _ _ (by omega),
            hcopy j (by omega), List.getElem?_append_left hjl]
          exact ⟨strAt_eq path j hjl, hchar j hjl⟩
        · have hj2 : j = path.length := by omega
          subst hj2
          rw [upd_other _ _ _ _ (by omega), upd_same,
            List.getElem?_append_right (le_refl _)]
          simp [SLASH]
      · simp only [List.length_append, List.length_cons, List.length_nil]
        push_cast
        exact upd_same _ _ _
    · have hc2 : ¬ (strAt path ((path.length : Int) - 1) ≠ SLASH ∧
          (path.length : Int) < INPUT_BUF - 1) := by
        intro h
        apply hc
        refine ⟨fun h2 => h.1 ?_, by have := h.2; unfold INPUT_BUF at this; omega⟩
        rw [hlast] at h2
        exact (Option.some.inj h2)
      rw [if_neg hc, if_neg hc2]
      have hlen : (path.take 127).length = min path.length 127 := by
        rw [List.length_take]; omega
      refine ⟨fun j hj => ?_, ?_⟩
      · rw [hlen] at hj
        rw [hcopy j hj, List.getElem?_take_of_lt (by omega)]
        exact ⟨strAt_eq path j (by omega), hchar j (by omega)⟩
      · rw [hlen]; exact hterm
  · unfold storedPath
    split
    · simp only [List.length_append, List.length_cons, List.length_nil]; omega
    · rw [List.length_take]; omega

/-- C13 (counterexample). A path of 127 characters without a trailing
separator is registered with success, and the entry stored is the path
itself, whose last character is not the separator. -/
theorem C13_long_path_without_separator :
    ∃ kp1, sys_add_path (some (List.replicate 127 97)) emptyTable = some (0, kp1) ∧
      HoldsStr (kp1.entries 0) (List.replicate 127 97) ∧
      (List.replicate 127 (97 : Int)).getLast? = some 97 := by
  obtain ⟨kp1, h1, _, _, h4, _⟩ :=
    sys_add_path_ok emptyTable (List.replicate 127 97) (by decide) (by simp)
      (fun c hc => by rw [List.eq_of_mem_replicate hc]; decide)
  refine ⟨kp1, h1, ?_, by simp [List.getLast?_replicate]⟩
  have hst : storedPath (List.replicate 127 97) = List.replicate 127 97 := by
    unfold storedPath
    rw [if_neg (by simp)]
    simp
  rw [hst] at h4
  exact h4

/-- C13 (amended). For every non-empty path that fits its entry (at most 126
characters, or 127 characters the last of which is the separator), a call of
`sys_add_path` with room in the table succeeds and the new entry
`kernel_path.entries[old size]` is a NUL-terminated string of at most 127
characters whose last character is `/`. -/
theorem C13_entry_ends_with_separator (kp : PathTable) (path : List Int)
    (hsize : 0 ≤ kp.size ∧ kp.size < MAX_PATH_ENTRIES) (hne : path ≠ [])
    (hnz : ∀ c ∈ path, c ≠ 0)
    (hfit : (path.getLast? = some SLASH ∧ path.length ≤ 127) ∨
      (path.getLast? ≠ some SLASH ∧ path.length ≤ 126)) :
    ∃ kp1 str, sys_add_path (some path) kp = some (0, kp1) ∧
      HoldsStr (kp1.entries kp.size) str ∧ str.length ≤ 127 ∧ str.getLast? = some SLASH := by
  obtain ⟨kp1, h1, _, _, h4, h5⟩ := sys_add_path_ok kp path hsize hne hnz
  refine ⟨kp1, storedPath path, h1, h4, h5, ?_⟩
  unfold storedPath
  rcases hfit with ⟨hl, hlen⟩ | ⟨hl, hlen⟩
  · rw [if_neg (by tauto), List.take_of_length_le hlen]
    exact hl
  · rw [if_pos ⟨hl, by omega⟩]
    simp

theorem C13_entry_ends_with_separator_witness :
    ∃ kp1 str, sys_add_path (some [47, 98, 105, 110]) emptyTable = some (0, kp1) ∧
      HoldsStr (kp1.entries emptyTable.size) str ∧ str.length ≤ 127 ∧
      str.getLast? = some SLASH :=
  C13_entry_ends_with_separator emptyTable [47, 98, 105, 110] (by decide) (by decide)
    (by decide) (Or.inr (by decide))

/-- C14 (counterexample). A path of 200 characters does not fit a 128-byte
entry, yet its registration returns 0 and changes the table: the size becomes
1 and entry 0 holds the first 127 characters. -/
theorem C14_oversized_path_accepted :
    ∃ kp1, sys_add_path (some (List.replicate 200 97)) emptyTable = some (0, kp1) ∧
      kp1.size = 1 ∧ HoldsStr (kp1.entries 0) (List.replicate 127 97) := by
  obtain ⟨kp1, h1, h2, _, h4, _⟩ :=
    sys_add_path_ok emptyTable (List.replicate 200 97) (by decide) (by simp)
      (fun c hc => by rw [List.eq_of_mem_replicate hc]; decide)
  refine ⟨kp1, h1, h2, ?_⟩
  have hst : storedPath (List.replicate 200 97) = List.replicate 127 97 := by
    unfold storedPath
    rw [if_neg (fun h => by have := h.2; rw [List.length_replicate] at this; omega),
      List.take_replicate]
    rfl
  rw [hst] at h4
  exact h4

/-- C14 (amended). `sys_add_path` returns -1 and leaves `kernel_path` as it is
when the argument cannot be fetched or the table already holds 10 entries;
otherwise, for a non-empty string, it returns 0, increments the size, leaves
every other entry as it is and stores at index old size the path with a
separator appended if it lacks one and both fit, and the first 127 characters
of the path (so a truncation of an oversized path) otherwise. -/
theorem C14_add_path_outcomes (kp : PathTable) (arg : Option (List Int))
    (hsize : 0 ≤ kp.size ∧ kp.size ≤ MAX_PATH_ENTRIES)
    (harg : ∀ path, arg = some path → path ≠ [] ∧ ∀ c ∈ path, c ≠ 0) :
    ((arg = none ∨ kp.size = MAX_PATH_ENTRIES) → sys_add_path arg kp = some (-1, kp)) ∧
    (∀ path, arg = some path → kp.size ≠ MAX_PATH_ENTRIES →
      ∃ kp1, sys_add_path arg kp = some (0, kp1) ∧ kp1.size = kp.size + 1 ∧
        (∀ k, k ≠ kp.size → kp1.entries k = kp.entries k) ∧
        HoldsStr (kp1.entries kp.size) (storedPath path) ∧
        (storedPath path).length ≤ 127) := by
  constructor
  · intro h
    cases arg with
    | none => rfl
    | some path =>
      rcases h with h | h
      · exact absurd h (by simp)
      · simp [sys_add_path, h]
  · intro path hp hs
    rw [hp]
    exact sys_add_path_ok kp path ⟨hsize.1, by omega⟩ (harg path hp).1 (harg path hp).2

theorem C14_add_path_outcomes_witness :
    ((some [(47 : Int), 98] = none ∨ emptyTable.size = MAX_PATH_ENTRIES) →
        sys_add_path (some [47, 98]) emptyTable = some (-1, emptyTable)) ∧
    (∀ path, some [47, 98] = some path → emptyTable.size ≠ MAX_PATH_ENTRIES →
      ∃ kp1, sys_add_path (some [47, 98]) emptyTable = some (0, kp1) ∧
        kp1.size = emptyTable.size + 1 ∧
        (∀ k, k ≠ emptyTable.size → kp1.entries k = emptyTable.entries k) ∧
        HoldsStr (kp1.entries emptyTable.size) (storedPath path) ∧
        (storedPath path).length ≤ 127) :=
  C14_add_path_outcomes emptyTable (some [47, 98]) (by decide)
    (fun path hp => by
      have : path = [47, 98] := (Option.some.inj hp).symm
      rw [this]; decide)

theorem strAt_nil (i : Int) : strAt [] i = 0 := by
  unfold strAt
  rw [if_neg (by simp)]

theorem strAt_cons_zero (x : Int) (xs : List Int) : strAt (x :: xs) 0 = x := by
  unfold strAt
  rw [if_pos ⟨le_refl _, by simp⟩]
  rfl

theorem strAt_cons_succ (x : Int) (xs : List Int) (j : Nat) :
    strAt (x :: xs) ((j : Int) + 1) = strAt xs (j : Int) := by
  unfold strAt
  by_cases h : j < xs.length
  · rw [if_pos ⟨by omega, by simp; omega⟩, if_pos ⟨by omega, by omega⟩]
    have : ((j : Int) + 1).toNat = j + 1 := by omega
    rw [this]
    simp
  · rw [if_neg (by simp; omega), if_neg (by omega)]

theorem agree_cons (mem : Int → Int) (a : Int) (x : Int) (xs : List Int)
    (h : Agree mem a (x :: xs)) : mem a = x ∧ Agree mem (a + 1) xs := by
  constructor
  · have := h 0 (by simp)
    simpa [strAt_cons_zero] using this
  · intro j hj
    have := h (j + 1) (by simp; omega)
    push_cast at this
    rw [← strAt_cons_succ x xs j, ← this]
    congr 1; ring

theorem agree_nil (mem : Int → Int) (a : Int) (h : Agree mem a []) : mem a = 0 := by
  have := h 0 (by simp)
  simpa [strAt_nil] using this

theorem readStr_spec (l : List Int) : ∀ (fuel : Nat) (mem : Int → Int) (a : Int),
    (∀ j : Nat, j < l.length → mem (a + (j : Int)) = strAt l (j : Int)) →
    mem (a + (l.length : Int)) = 0 → (∀ c ∈ l, c ≠ 0) → l.length < fuel →
    readStr mem fuel a = l := by
  induction l with
  | nil =>
    intro fuel mem a _ h0 _ hf
    obtain ⟨f, rfl⟩ : ∃ f, fuel = f + 1 := ⟨fuel - 1, by simp at hf; omega⟩
    simp only [List.length_nil, Nat.cast_zero, add_zero] at h0
    rw [readStr, if_pos h0]
  | cons x xs ih =>
    intro fuel mem a hcells h0 hnz hf
    simp only [List.length_cons] at hf h0
    obtain ⟨f, rfl⟩ : ∃ f, fuel = f + 1 := ⟨fuel - 1, by omega⟩
    have hx : mem a = x := by
      have := hcells 0 (by simp)
      simpa [strAt_cons_zero] using this
    rw [readStr, if_neg (by rw [hx]; exact hnz x (by simp)), hx]
    congr 1
    apply ih f mem (a + 1)
    · intro j hj
      have := hcells (j + 1) (by simp; omega)
      push_cast at this
      rw [← strAt_cons_succ x xs j, ← this]
      congr 1; ring
    · rw [← h0]; congr 1; push_cast; ring
    · exact fun c hc => hnz c (by simp [hc])
    · omega

/-- The loop that skips separators stops at the first character that is not
one, within the string. -/
theorem skipSeps_spec (rest : List Int) : ∀ (fuel : Nat) (mem : Int → Int) (a : Int),
    Agree mem a rest → (∀ c ∈ rest, c ≠ 0) → rest.length < fuel →
    ∃ k : Nat, skipSeps mem fuel a = some (a + (k : Int)) ∧
      Agree mem (a + (k : Int)) (rest.dropWhile (fun c => decide (c = PATH_SEP))) ∧
      k + (rest.dropWhile (fun c => decide (c = PATH_SEP))).length = rest.length := by
  induction rest with
  | nil =>
    intro fuel mem a hag _ hf
    obtain ⟨f, rfl⟩ : ∃ f, fuel = f + 1 := ⟨fuel - 1, by simp at hf; omega⟩
    refine ⟨0, ?_, by simpa using hag, by simp⟩
    rw [skipSeps, if_neg (by rw [agree_nil mem a hag]; decide)]
    simp
  | cons x xs ih =>
    intro fuel mem a hag hnz hf
    simp only [List.length_cons] at hf
    obtain ⟨f, rfl⟩ : ∃ f, fuel = f + 1 := ⟨fuel - 1, by omega⟩
    obtain ⟨hx, hag1⟩ := agree_cons mem a x xs hag
    by_cases hsep : x = PATH_SEP
    · obtain ⟨k, hk, hagk, hlen⟩ := ih f mem (a + 1) hag1 (fun c hc => hnz c (by simp [hc]))
        (by omega)
      refine ⟨k + 1, ?_, ?_, ?_⟩
      · rw [skipSeps, if_pos (by rw [hx]; exact hsep), hk]
        congr 1; push_cast; ring
      · rw [List.dropWhile_cons_of_pos (by simpa using hsep)]
        have : a + ((k + 1 : Nat) : Int) = a + 1 + (k : Int) := by push_cast; ring
        rw [this]; exact hagk
      · rw [List.dropWhile_cons_of_pos (by simpa using hsep)]
        simp only [List.length_cons]; omega
    · refine ⟨0, ?_, ?_, ?_⟩
      · rw [skipSeps, if_neg (by rw [hx]; exact hsep)]
        simp
      · rw [List.dropWhile_cons_of_neg (by simpa using hsep)]
        simpa using hag
      · rw [List.dropWhile_cons_of_neg (by simpa using hsep)]
        simp

theorem runsFrom_dropWhile (l : List Int) :
    runsFrom [] l = runsFrom [] (l.dropWhile (fun c => decide (c = PATH_SEP))) := by
  induction l with
  | nil => rfl
  | cons x xs ih =>
    by_cases hsep : x = PATH_SEP
    · rw [List.dropWhile_cons_of_pos (by simpa using hsep), ← ih]
      simp [runsFrom, hsep]
    · rw [List.dropWhile_cons_of_neg (by simpa using hsep)]

theorem dropWhile_head (l : List Int) (c : Int) (t : List Int)
    (h : l.dropWhile (fun c => decide (c = PATH_SEP)) = c :: t) : c ≠ PATH_SEP := by
  induction l with
  | nil => simp at h
  | cons x xs ih =>
    by_cases hsep : x = PATH_SEP
    · rw [List.dropWhile_cons_of_pos (by simpa using hsep)] at h
      exact ih h
    · rw [List.dropWhile_cons_of_neg (by simpa using hsep)] at h
      injection h with h1 _
      rw [← h1]; exact hsep

theorem strAt_append_right (acc tail : List Int) (j : Nat) :
    strAt (acc ++ tail) ((acc.length : Int) + (j : Int)) = strAt tail (j : Int) := by
  induction acc with
  | nil => simp
  | cons x xs ih =>
    have : (((x :: xs).length : Nat) : Int) + (j : Int) = ((xs.length + j : Nat) : Int) + 1 := by
      simp only [List.length_cons]; push_cast; ring
    rw [List.cons_append, this, strAt_cons_succ]
    push_cast
    exact ih

theorem strAt_append_left (acc tail : List Int) (j : Nat) (hj : j < acc.length) :
    strAt (acc ++ tail) (j : Int) = strAt acc (j : Int) := by
  unfold strAt
  rw [if_pos ⟨by omega, by simp; omega⟩, if_pos ⟨by omega, by omega⟩]
  simp only [Int.toNat_ofNat, List.getD_eq_getElem?_getD]
  rw [List.getElem?_append_left hj]

theorem strAt_length (l : List Int) : strAt l (l.length : Int) = 0 := by
  unfold strAt
  rw [if_neg (by omega)]

theorem agree_suffix (mem : Int → Int) (a : Int) (acc tail : List Int)
    (h : Agree mem a (acc ++ tail)) : Agree mem (a + (acc.length : Int)) tail := by
  intro j hj
  have := h (acc.length + j) (by simp; omega)
  push_cast at this
  rw [← strAt_append_right acc tail j, ← this]
  congr 1; ring

theorem agree_head (mem : Int → Int) (a : Int) (acc tail : List Int)
    (h : Agree mem a (acc ++ tail)) (hnz : ∀ c ∈ acc ++ tail, c ≠ 0)
    (hacc : ∀ c ∈ acc, c ≠ PATH_SEP)
    (hhead : acc ≠ [] ∨ ∃ c t, tail = c :: t ∧ c ≠ PATH_SEP) :
    mem a ≠ 0 ∧ mem a ≠ PATH_SEP := by
  cases acc with
  | nil =>
    rcases hhead with h1 | ⟨c, t, ht, hc⟩
    · exact absurd rfl h1
    · subst ht
      obtain ⟨hx, _⟩ := agree_cons mem a c t (by simpa using h)
      rw [hx]
      exact ⟨hnz c (by simp), hc⟩
  | cons x xs =>
    obtain ⟨hx, _⟩ := agree_cons mem a x (xs ++ tail) (by simpa using h)
    rw [hx]
    exact ⟨hnz x (by simp), hacc x (by simp)⟩

theorem readStr_acc (mem : Int → Int) (a : Int) (acc tail : List Int) (n : Nat)
    (h : Agree mem a (acc ++ tail)) (hnz : ∀ c ∈ acc ++ tail, c ≠ 0)
    (hn : (acc ++ tail).length < n) (mem1 : Int → Int)
    (hsame : ∀ j : Nat, j < acc.length → mem1 (a + (j : Int)) = mem (a + (j : Int)))
    (hend : mem1 (a + (acc.length : Int)) = 0) : readStr mem1 n a = acc := by
  apply readStr_spec acc n mem1 a
  · intro j hj
    rw [hsame j hj, h j (by simp; omega), strAt_append_left acc tail j hj]
  · exact hend
  · exact fun c hc => hnz c (by simp [hc])
  · simp at hn; omega

/-- The main loop of `add_separated_paths`, entered with `start` at the first
character of the run `acc` being read and `cur` just after it: the calls made
from there on are the runs of the rest of the string, and `*start` is neither
NUL nor a separator at every evaluation of the loop head. -/
theorem exportLoop_spec (n : Nat) (fuel : Nat) :
    ∀ (tail acc : List Int) (mem : Int → Int) (a : Int) (tr : ExportTrace),
      Agree mem a (acc ++ tail) → (∀ c ∈ acc ++ tail, c ≠ 0) → (∀ c ∈ acc, c ≠ PATH_SEP) →
      (acc ≠ [] ∨ ∃ c t, tail = c :: t ∧ c ≠ PATH_SEP) →
      tail.length < fuel → (acc ++ tail).length < n →
      ∃ tr1, exportLoop n fuel mem a (a + (acc.length : Int)) tr = some tr1 ∧
        tr1.calls = tr.calls ++ runsFrom acc tail ∧
        (∀ h ∈ tr1.heads, h ∈ tr.heads ∨ (h ≠ 0 ∧ h ≠ PATH_SEP)) := by
  induction fuel with
  | zero => intro tail acc mem a tr _ _ _ _ hf _; omega
  | succ f ih =>
    intro tail acc mem a tr hag hnz hacc hhead hf hn
    have hh := agree_head mem a acc tail hag hnz hacc hhead
    have hsuf := agree_suffix mem a acc tail hag
    cases tail with
    | nil =>
      have hne : acc ≠ [] := by
        rcases hhead with h | ⟨c, t, ht, _⟩
        · exact h
        · exact absurd ht (by simp)
      have hcur : mem (a + (acc.length : Int)) = 0 := agree_nil _ _ hsuf
      have hrd := readStr_acc mem a acc [] n hag hnz hn mem (fun _ _ => rfl) hcur
      refine ⟨_, by rw [exportLoop, if_pos hcur], ?_, ?_⟩
      · simp only [hrd, runsFrom, if_neg hne]
      · intro h hmem
        simp only [List.mem_append, List.mem_singleton] at hmem
        rcases hmem with h1 | h1
        · exact Or.inl h1
        · rw [h1]; exact Or.inr hh
    | cons c t =>
      obtain ⟨hc, hagt⟩ := agree_cons _ _ c t hsuf
      have hc0 : c ≠ 0 := hnz c (by simp)
      by_cases hsep : c = PATH_SEP
      · -- a separator ends the run
        have hne : acc ≠ [] := by
          rcases hhead with h | ⟨c2, t2, ht, hc2⟩
          · exact h
          · injection ht with h1 _
            exact absurd (h1 ▸ hsep) hc2
        have hrd := readStr_acc mem a acc (c :: t) n hag hnz hn
          (upd mem (a + (acc.length : Int)) 0)
          (fun j hj => upd_other _ _ _ _ (by omega)) (upd_same _ _ _)
        have hagt1 : Agree (upd mem (a + (acc.length : Int)) 0) (a + (acc.length : Int) + 1) t := by
          intro j hj
          rw [upd_other _ _ _ _ (by omega)]
          exact hagt j hj
        have hlen : t.length < n := by simp at hn; omega
        obtain ⟨k, hk, hagk, hklen⟩ := skipSeps_spec t n _ _ hagt1
          (fun x hx => hnz x (by simp [hx])) hlen
        rw [exportLoop, if_neg (by rw [hc]; exact hc0), if_pos (by rw [hc]; exact hsep)]
        simp only [hk, hrd]
        have hruns : runsFrom acc (c :: t)
            = acc :: runsFrom [] (t.dropWhile (fun c => decide (c = PATH_SEP))) := by
          rw [runsFrom, if_pos hsep, if_neg hne, ← runsFrom_dropWhile]
        cases hdw : t.dropWhile (fun c => decide (c = PATH_SEP)) with
        | nil =>
          rw [hdw] at hagk
          rw [if_pos (agree_nil _ _ hagk)]
          refine ⟨_, rfl, ?_, ?_⟩
          · rw [hruns, hdw]; simp [runsFrom]
          · intro h hmem
            simp only [List.mem_append, List.mem_singleton] at hmem
            rcases hmem with h1 | h1
            · exact Or.inl h1
            · rw [h1]; exact Or.inr hh
        | cons c1 t1 =>
          rw [hdw] at hagk hklen
          obtain ⟨hc1, _⟩ := agree_cons _ _ c1 t1 hagk
          have hc1mem : c1 ∈ t := by
            have : c1 ∈ t.dropWhile (fun c => decide (c = PATH_SEP)) := by rw [hdw]; simp
            exact (List.dropWhile_sublist _).subset this
          have ht1sub : ∀ x ∈ t1, x ∈ t := by
            intro x hx
            have : x ∈ t.dropWhile (fun c => decide (c = PATH_SEP)) := by rw [hdw]; simp [hx]
            exact (List.dropWhile_sublist _).subset this
          rw [if_neg (by rw [hc1]; exact hnz c1 (by simp [hc1mem]))]
          simp only [List.length_cons] at hklen hf
          obtain ⟨tr1, h1, h2, h3⟩ := ih t1 [c1] (upd mem (a + (acc.length : Int)) 0)
            (a + (acc.length : Int) + 1 + (k : Int))
            { calls := tr.calls ++ [acc], heads := tr.heads ++ [mem a] }
            (by simpa using hagk)
            (by
              intro x hx
              simp only [List.singleton_append, List.mem_cons] at hx
              rcases hx with hx | hx
              · rw [hx]; exact hnz c1 (by simp [hc1mem])
              · exact hnz x (by simp [ht1sub x hx]))
            (by
              intro x hx
              simp only [List.mem_singleton] at hx
              rw [hx]; exact dropWhile_head t c1 t1 hdw)
            (Or.inl (by simp)) (by omega)
            (by simp only [List.singleton_append, List.length_cons]; omega)
          simp only [List.length_singleton, Nat.cast_one] at h1
          refine ⟨tr1, h1, ?_, ?_⟩
          · rw [h2, hruns, hdw]
            simp [runsFrom, dropWhile_head t c1 t1 hdw]
          · intro h hmem
            rcases h3 h hmem with h4 | h4
            · simp only [List.mem_append, List.mem_singleton] at h4
              rcases h4 with h5 | h5
              · exact Or.inl h5
              · rw [h5]; exact Or.inr hh
            · exact Or.inr h4
      · -- the run goes on
        rw [exportLoop, if_neg (by rw [hc]; exact hc0), if_neg (by rw [hc]; exact hsep)]
        simp only [List.length_cons] at hf
        obtain ⟨tr1, h1, h2, h3⟩ := ih t (acc ++ [c]) mem a
          { tr with heads := tr.heads ++ [mem a] }
          (by simpa using hag) (by simpa using hnz)
          (by
            intro x hx
            simp only [List.mem_append, List.mem_singleton] at hx
            rcases hx with hx | hx
            · exact hacc x hx
            · rw [hx]; exact hsep)
          (Or.inl (by simp)) (by omega) (by simpa using hn)
        have hcur : a + ((acc ++ [c]).length : Int) = a + (acc.length : Int) + 1 := by
          simp only [List.length_append, List.length_singleton]; push_cast; ring
        rw [hcur] at h1
        refine ⟨tr1, h1, ?_, ?_⟩
        · rw [h2, runsFrom, if_neg hsep]
        · intro h hmem
          rcases h3 h hmem with h4 | h4
          · simp only [List.mem_append, List.mem_singleton] at h4
            rcases h4 with h5 | h5
            · exact Or.inl h5
            · rw [h5]; exact Or.inr hh
          · exact Or.inr h4

theorem runsFrom_props (l : List Int) : ∀ (acc : List Int), (∀ c ∈ acc, c ≠ PATH_SEP) →
    ∀ r ∈ runsFrom acc l, r ≠ [] ∧ PATH_SEP ∉ r := by
  induction l with
  | nil =>
    intro acc hacc r hr
    unfold runsFrom at hr
    split at hr
    · simp at hr
    · rename_i hne
      simp only [List.mem_singleton] at hr
      rw [hr]
      exact ⟨hne, fun h => hacc _ h rfl⟩
  | cons c cs ih =>
    intro acc hacc r hr
    unfold runsFrom at hr
    split at hr
    · split at hr
      · exact ih [] (by simp) r hr
      · rename_i hne
        simp only [List.mem_cons] at hr
        rcases hr with h | h
        · rw [h]; exact ⟨hne, fun h => hacc _ h rfl⟩
        · exact ih [] (by simp) r h
    · rename_i hsep
      refine ih (acc ++ [c]) ?_ r hr
      intro x hx
      simp only [List.mem_append, List.mem_singleton] at hx
      rcases hx with h | h
      · exact hacc x h
      · rw [h]; exact hsep

theorem runsFrom_eq_splitOn (l : List Int) : ∀ (acc : List Int),
    runsFrom acc l
      = (((l.splitOn PATH_SEP).modifyHead (fun h => acc ++ h)).filter
          (fun r => decide (r ≠ []))) := by
  induction l with
  | nil =>
    intro acc
    unfold runsFrom
    by_cases h : acc = []
    · simp [h, List.splitOn]
    · simp [h, List.splitOn]
  | cons c cs ih =>
    intro acc
    unfold runsFrom
    rw [List.splitOn, List.splitOnP_cons]
    by_cases hsep : c = PATH_SEP
    · have hb : (c == PATH_SEP) = true := by simpa using hsep
      rw [if_pos hsep, if_pos hb]
      have ih0 := ih []
      simp only [List.nil_append] at ih0
      rw [ih0]
      have hid : (fun h : List Int => h) = id := rfl
      by_cases h : acc = []
      · simp [h, List.splitOn, hid]
      · simp [h, List.splitOn, hid]
    · have hb : ¬ (c == PATH_SEP) = true := by simpa using hsep
      rw [if_neg hsep, if_neg hb, ih (acc ++ [c])]
      simp [List.splitOn]
      rfl

/-- C20. `add_separated_paths` splits on `':'` and terminates: for every
NUL-terminated string `p` the run comes to an end within its bounds, the
arguments of the calls of `add_path`, in order, are exactly the maximal
non-empty runs of characters other than `':'` of `p` — the non-empty pieces of
`p` split at `':'`, each free of `':'` — and at every evaluation of the head of
the main loop `*start` is neither NUL nor `':'`. -/
theorem C20_add_separated_paths (p : List Int) (hnz : ∀ c ∈ p, c ≠ 0) :
    ∃ tr, add_separated_paths p = some tr ∧ tr.calls = pathRuns p ∧
      pathRuns p = (p.splitOn PATH_SEP).filter (fun r => decide (r ≠ [])) ∧
      (∀ r ∈ pathRuns p, r ≠ [] ∧ PATH_SEP ∉ r) ∧
      (∀ h ∈ tr.heads, h ≠ 0 ∧ h ≠ PATH_SEP) := by
  have hsplit : pathRuns p = (p.splitOn PATH_SEP).filter (fun r => decide (r ≠ [])) := by
    unfold pathRuns
    rw [runsFrom_eq_splitOn p []]
    have hid : (fun h : List Int => [] ++ h) = id := by funext h; simp
    rw [hid, List.modifyHead_id]
    rfl
  have hprops : ∀ r ∈ pathRuns p, r ≠ [] ∧ PATH_SEP ∉ r :=
    runsFrom_props p [] (by simp)
  have hag : Agree (strMem p) 0 p := by
    intro j _
    simp [strMem]
  obtain ⟨k, hk, hagk, hklen⟩ := skipSeps_spec p (p.length + 1) (strMem p) 0 hag hnz (by omega)
  have hruns : pathRuns p = runsFrom [] (p.dropWhile (fun c => decide (c = PATH_SEP))) :=
    runsFrom_dropWhile p
  unfold add_separated_paths
  rw [hk]
  simp only
  cases hdw : p.dropWhile (fun c => decide (c = PATH_SEP)) with
  | nil =>
    rw [hdw] at hagk
    rw [if_pos (agree_nil _ _ hagk)]
    refine ⟨_, rfl, ?_, hsplit, hprops, by simp⟩
    rw [hruns, hdw]; simp [runsFrom]
  | cons c t =>
    rw [hdw] at hagk hklen
    obtain ⟨hc, _⟩ := agree_cons _ _ c t hagk
    have hsub : ∀ x ∈ c :: t, x ∈ p := by
      intro x hx
      have : x ∈ p.dropWhile (fun c => decide (c = PATH_SEP)) := by rw [hdw]; exact hx
      exact (List.dropWhile_sublist _).subset this
    rw [if_neg (by rw [hc]; exact hnz c (hsub c (by simp)))]
    simp only [List.length_cons] at hklen
    obtain ⟨tr1, h1, h2, h3⟩ := exportLoop_spec (p.length + 1) (p.length + 1) (c :: t) []
      (strMem p) (0 + (k : Int)) { calls := [], heads := [] }
      (by simpa using hagk) (by intro x hx; exact hnz x (hsub x (by simpa using hx)))
      (by simp) (Or.inr ⟨c, t, rfl, dropWhile_head p c t hdw⟩)
      (by simp only [List.length_cons]; omega)
      (by simp only [List.nil_append, List.length_cons]; omega)
    simp only [List.length_nil, Nat.cast_zero, add_zero] at h1
    refine ⟨tr1, h1, ?_, hsplit, hprops, ?_⟩
    · rw [h2, hruns, hdw]; simp
    · intro h hmem
      rcases h3 h hmem with h4 | h4
      · simp at h4
      · exact h4

theorem C20_add_separated_paths_witness :
    ∃ tr, add_separated_paths [58, 97, 98, 58, 58, 99, 58] = some tr ∧
      tr.calls = pathRuns [58, 97, 98, 58, 58, 99, 58] ∧
      pathRuns [58, 97, 98, 58, 58, 99, 58]
        = (([58, 97, 98, 58, 58, 99, 58] : List Int).splitOn PATH_SEP).filter
            (fun r => decide (r ≠ [])) ∧
      (∀ r ∈ pathRuns [58, 97, 98, 58, 58, 99, 58], r ≠ [] ∧ PATH_SEP ∉ r) ∧
      (∀ h ∈ tr.heads, h ≠ 0 ∧ h ≠ PATH_SEP) :=
  C20_add_separated_paths [58, 97, 98, 58, 58, 99, 58] (by decide)

end Console
